import Mathlib

/-
Verification of the `scripts/convert` pipeline (LaTeX blueprint → Lean
`@[blueprint]` attributes).

Python strings are modelled as `List Char`; Python `set[str]` values are
modelled as duplicate-free lists in iteration order (only membership and
iteration are used by the code under verification); the file system is
modelled as an association list from path strings to file contents; calls
to `loguru.logger.warning` are modelled by accumulating the warning
messages in a list.  Each definition mirrors one Python function of the
repository and carries the same name where Lean permits.
-/

/-! ### Basic string utilities -/

/-- Python whitespace (`str.strip`, the regex class `\s`) restricted to ASCII. -/
def isPyWs (c : Char) : Bool :=
  c = ' ' || c = '\t' || c = '\n' || c = '\r' || c = '\x0b' || c = '\x0c'

/-- Python `str.strip()`. -/
def pyStrip (s : List Char) : List Char :=
  ((s.dropWhile isPyWs).reverse.dropWhile isPyWs).reverse

/-- Split after each newline character, keeping the terminator (the line
structure seen by a regex whose `.` does not match a newline). -/
def splitNlKeep : List Char → List (List Char)
  | [] => []
  | c :: cs =>
    if c = '\n' then [c] :: splitNlKeep cs
    else
      match splitNlKeep cs with
      | [] => [[c]]
      | l :: ls => (c :: l) :: ls

/-- Line-break characters recognised by Python `str.splitlines`. -/
def isPyLineBreak (c : Char) : Bool :=
  c = '\n' || c = '\r' || c = '\x0b' || c = '\x0c' || c = '\x1c' || c = '\x1d' ||
  c = '\x1e' || c = '\x85' || c = '\u2028' || c = '\u2029'

/-- Python `str.splitlines(keepends=True)`. -/
def splitLinesKeep : List Char → List (List Char)
  | [] => []
  | '\r' :: '\n' :: cs => ['\r', '\n'] :: splitLinesKeep cs
  | c :: cs =>
    if isPyLineBreak c then [c] :: splitLinesKeep cs
    else
      match splitLinesKeep cs with
      | [] => [[c]]
      | l :: ls => (c :: l) :: ls

/-- Split a string at the first occurrence of `pat`, returning the parts
before and after the occurrence (the semantics of a lazy `(.*?)pat` regex
match, or `str.find`). -/
def splitFirst (pat : List Char) : List Char → Option (List Char × List Char)
  | [] => if pat.isEmpty then some ([], []) else none
  | c :: cs =>
    if pat.isPrefixOf (c :: cs) then some ([], (c :: cs).drop pat.length)
    else
      match splitFirst pat cs with
      | some (a, b) => some (c :: a, b)
      | none => none

/-- Python `pat in s` (substring containment). -/
def containsSub (pat s : List Char) : Bool :=
  (splitFirst pat s).isSome

/-- Lowercase hexadecimal digit. -/
def hexDigit (n : Nat) : Char :=
  if n < 10 then Char.ofNat ('0'.toNat + n) else Char.ofNat ('a'.toNat + n - 10)

/-- Escaping of one character by `json.dumps(..., ensure_ascii=False)`. -/
def jsonEscapeChar (c : Char) : List Char :=
  if c = '"' then ['\\', '"']
  else if c = '\\' then ['\\', '\\']
  else if c = '\n' then ['\\', 'n']
  else if c = '\t' then ['\\', 't']
  else if c = '\r' then ['\\', 'r']
  else if c = '\x08' then ['\\', 'b']
  else if c = '\x0c' then ['\\', 'f']
  else if c.toNat < 0x20 then
    ['\\', 'u', '0', '0', hexDigit (c.toNat / 16), hexDigit (c.toNat % 16)]
  else [c]

/-! ### common.py -/

/-- Python `_quote`: `json.dumps(s, ensure_ascii=False)`, a double-quoted
JSON string literal. -/
def _quote (s : List Char) : List Char :=
  '"' :: (s.map jsonEscapeChar).flatten ++ ['"']

/-- Python `NodePart` (common.py).  The `uses` and `uses_raw` sets are
modelled as duplicate-free lists in iteration order. -/
structure NodePart where
  lean_ok : Bool
  text : List Char
  uses : List (List Char)
  uses_raw : List (List Char)
  latex_env : List Char
deriving DecidableEq

/-- Python `NodePart.all_uses`. -/
def NodePart.all_uses (p : NodePart) : List (List Char) :=
  p.uses ++ p.uses_raw.map _quote

/-- Python `make_docstring` (common.py). -/
def make_docstring (text : List Char) (indent : Nat) : List Char :=
  let t := pyStrip text
  let t := (t.map (fun c => if c = '\n' then '\n' :: List.replicate indent ' ' else [c])).flatten
  if t.contains '\n' then
    ("/--\n".toList) ++ List.replicate indent ' ' ++ t ++
      ('\n' :: (List.replicate indent ' ' ++ ("-/".toList)))
  else
    ("/-- ".toList) ++ t ++ (" -/".toList)

/-- Python `Node` (common.py). -/
structure Node where
  name : List Char
  statement : NodePart
  proof : Option NodePart
  not_ready : Bool
  discussion : Option Int
  title : Option (List Char)
deriving DecidableEq

/-- Python `Node.uses`: the union `statement.uses | proof.uses`.  Union of
sets is modelled by list concatenation (the code only tests membership and
iterates, so any iteration order is a faithful model). -/
def Node.uses (n : Node) : List (List Char) :=
  n.statement.uses ++ (match n.proof with | some p => p.uses | none => [])

/-- Python `Node.to_lean_attribute` (common.py).  The `configs` list is
built by the same sequence of conditional appends as the Python code. -/
def Node.to_lean_attribute (n : Node)
    (add_statement_text add_uses add_uses_raw add_proof_text add_proof_uses
      add_proof_uses_raw : Bool) : List Char :=
  let configs : List (List Char) :=
    (match n.title with
     | some t => if t ≠ [] then [_quote t] else []
     | none => []) ++
    (if add_statement_text && pyStrip n.statement.text ≠ [] then
      [("(statement := ".toList) ++ make_docstring n.statement.text 2 ++ (")".toList)]
     else []) ++
    (if add_uses && n.statement.uses ≠ [] then
      [("(uses := [".toList) ++ (", ".toList).intercalate n.statement.uses ++ ("])".toList)]
     else []) ++
    (if add_uses_raw && n.statement.uses_raw ≠ [] then
      [("(uses := [".toList) ++ (", ".toList).intercalate (n.statement.uses_raw.map _quote) ++
        ("])".toList)]
     else []) ++
    (match n.proof with
     | some p =>
       (if add_proof_text && pyStrip p.text ≠ [] then
         [("(proof := ".toList) ++ make_docstring p.text 2 ++ (")".toList)]
        else []) ++
       (if add_proof_uses && p.uses ≠ [] then
         [("(proofUses := [".toList) ++ (", ".toList).intercalate p.uses ++ ("])".toList)]
        else []) ++
       (if add_proof_uses_raw && p.uses_raw ≠ [] then
         [("(proofUses := [".toList) ++ (", ".toList).intercalate (p.uses_raw.map _quote) ++
           ("])".toList)]
        else [])
     | none => []) ++
    (if n.not_ready then [("(notReady := true)".toList)] else []) ++
    (match n.discussion with
     | some d => if d ≠ 0 then [("(discussion := ".toList) ++ (toString d).toList ++ (")".toList)]
                 else []
     | none => []) ++
    (if (n.proof.isNone && n.statement.latex_env ≠ ("definition".toList)) ||
        (n.proof.isSome && n.statement.latex_env ≠ ("theorem".toList)) then
      [("(latexEnv := ".toList) ++ _quote n.statement.latex_env ++ (")".toList)]
     else [])
  ("blueprint".toList) ++ (configs.map (fun c => ('\n' :: ' ' :: ' ' :: c))).flatten

/-- Python `Position` (common.py); 1-indexed line, byte column. -/
structure Position where
  line : Nat
  column : Nat
deriving DecidableEq

/-- Python `DeclarationRange` (common.py). -/
structure DeclarationRange where
  pos : Position
  end_pos : Position
deriving DecidableEq

/-- Python `DeclarationLocation` (common.py). -/
structure DeclarationLocation where
  module : List Char
  range : DeclarationRange
deriving DecidableEq

/-- Python `NodeWithPos` (common.py). -/
structure NodeWithPos extends Node where
  has_lean : Bool
  location : Option DeclarationLocation
  file : Option (List Char)
deriving DecidableEq

/-! ### modify_lean.py : source splicing -/

/-- Python `split_declaration` offset computation: sum of the lengths of
the full lines before the (1-indexed) target line, plus the byte column. -/
def lineColOffset (lines : List (List Char)) (line col : Nat) : Nat :=
  ((lines.take (line - 1)).map List.length).sum + col

/-- Python `split_declaration` (modify_lean.py). -/
def split_declaration (source : List Char) (pos end_pos : Position) :
    List Char × List Char × List Char :=
  let lines := splitLinesKeep source
  let start := lineColOffset lines pos.line pos.column
  let e := lineColOffset lines end_pos.line end_pos.column
  (source.take start, (source.drop start).take (e - start), source.drop e)

/-- One line of the leading command-modifier block, as matched by one
repetition of `re.search("^(?:[a-zA-Z_]+.*?in\n)+", decl)`: at least one
leading letter or underscore, then anything, ending in `in` directly
before the terminating newline. -/
def isModifierLine (l : List Char) : Bool :=
  match l with
  | [] => false
  | c :: _ => (c.isAlpha || c = '_') && ("in\n".toList).isSuffixOf l && decide (4 ≤ l.length)

/-- The leading command-modifier block of a declaration and the rest:
models the `^(?:[a-zA-Z_]+.*?in\n)+` match and its removal. -/
def stripModifiers (decl : List Char) : List Char × List Char :=
  let ls := splitNlKeep decl
  let ms := ls.takeWhile isModifierLine
  (ms.flatten, (ls.drop ms.length).flatten)

/-- Models `re.search("^\s*/--(.*?)-/\s*", decl, flags=re.DOTALL)` and
removal of the match: returns the captured docstring body and the rest of
the declaration. -/
def stripDocstring (decl : List Char) : Option (List Char × List Char) :=
  let rest := decl.dropWhile isPyWs
  if ("/--".toList).isPrefixOf rest then
    match splitFirst ("-/".toList) (rest.drop 3) with
    | some (body, after) => some (body, after.dropWhile isPyWs)
    | none => none
  else none

/-- Models `re.search("^\s*@\[(.*?)\]\s*", decl, flags=re.DOTALL)` and
removal of the match: returns the captured attribute list and the rest of
the declaration. -/
def stripAttrBlock (decl : List Char) : Option (List Char × List Char) :=
  let rest := decl.dropWhile isPyWs
  if ("@[".toList).isPrefixOf rest then
    match splitFirst ("]".toList) (rest.drop 2) with
    | some (body, after) => some (body, after.dropWhile isPyWs)
    | none => none
  else none

/-- Python `insert_docstring_and_attribute` (modify_lean.py).  The
`warned_to_additive` global only affects logging, not the returned
string, and is omitted. -/
def insert_docstring_and_attribute (decl new_docstring new_attr : List Char) : List Char :=
  let m := stripModifiers decl
  let command_modifiers := m.1
  let decl1 := m.2
  let d :=
    match stripDocstring decl1 with
    | some (body, rest) => (new_docstring ++ ('\n' :: '\n' :: pyStrip body), rest)
    | none => (new_docstring, decl1)
  let docstring0 := d.1
  let decl2 := d.2
  let a :=
    match stripAttrBlock decl2 with
    | some (body, rest) => (body ++ (", ".toList) ++ new_attr, rest)
    | none => (new_attr, decl2)
  let attrs := a.1
  let decl3 := a.2
  let docstring := if pyStrip docstring0 ≠ [] then make_docstring docstring0 0 else docstring0
  if ("to_additive".toList).isPrefixOf decl3 then
    let decl4 := pyStrip (decl3.drop 11)
    let decl5 := if decl4 ≠ [] then decl4 ++ [' '] else decl4
    ("to_additive (attr := ".toList) ++ attrs ++ (") ".toList) ++ decl5 ++ docstring
  else
    command_modifiers ++ docstring ++ ('\n' :: '@' :: '[' :: attrs) ++ (']' :: '\n' :: decl3)

/-- Python `modify_source` (modify_lean.py), restricted to its pure core:
the transformation applied to the file contents (the enclosing read/write
of `file` is modelled by the caller). -/
def modify_source_text (node : Node) (source : List Char) (location : DeclarationLocation)
    (add_uses0 : Bool) (prepend : Option (List (List Char))) : List Char :=
  let parts := split_declaration source location.range.pos location.range.end_pos
  let pre := parts.1
  let decl := parts.2.1
  let post := parts.2.2
  let add_uses := add_uses0 || (node.proof.isNone && containsSub ("sorry".toList) decl)
  let add_uses_raw := add_uses || decide (0 < node.statement.uses_raw.length)
  let add_proof_uses := add_uses || (node.proof.isSome && containsSub ("sorry".toList) decl)
  let add_proof_uses_raw := add_uses ||
    (node.proof.isSome &&
      (match node.proof with | some p => decide (0 < p.uses_raw.length) | none => false))
  let attr := node.to_lean_attribute false add_uses add_uses_raw true add_proof_uses
    add_proof_uses_raw
  let decl' := insert_docstring_and_attribute decl node.statement.text attr
  let decl'' :=
    match prepend with
    | some ps => (ps.map (fun p => p ++ ['\n', '\n'])).flatten ++ decl'
    | none => decl'
  pre ++ decl'' ++ post

/-- Python `add_blueprint_gen_import` (modify_lean.py): insert the line
`import Architect` at the index of the first line starting with
`import ` or `public import ` (index 0 when there is none). -/
def add_blueprint_gen_import (source : List Char) : List Char :=
  let lines := splitLinesKeep source
  let first_import_index :=
    match lines.findIdx? (fun l =>
        ("import ".toList).isPrefixOf l || ("public import ".toList).isPrefixOf l) with
    | some i => i
    | none => 0
  ((lines.take first_import_index) ++ [("import Architect\n".toList)] ++
    (lines.drop first_import_index)).flatten

/-! ### modify_lean.py : topological sort -/

/-- State of `topological_sort`: the global `visited` set and the `result`
list being appended to. -/
structure VisitSt where
  visited : Finset (List Char)
  result : List (NodeWithPos × List Char)

/-- The `name_to_node` dictionary built by `topological_sort`: a Python
dict comprehension keeps the last entry for a repeated key. -/
def name_to_node_lookup (data : List (NodeWithPos × List Char)) (n : List Char) :
    Option (NodeWithPos × List Char) :=
  data.reverse.find? (fun p => p.1.name = n)

/-- The key set of `name_to_node`. -/
def topoNames (data : List (NodeWithPos × List Char)) : Finset (List Char) :=
  (data.map (fun p => p.1.name)).toFinset

/-- The recursive `visit` of `topological_sort`, processing a worklist of
names: the outer `for node, _ in data` loop passes the node names in
order, and the recursive call passes `node.uses` (the guard
`if used in name_to_node` is the `none` case of the lookup; for the
outer loop's names the lookup always succeeds, so reading
`name_to_node[name]` never raises).  Python tests `name in visited`
before reading the dictionary; both orders agree on every reachable call
since an unknown name is skipped with no state change.  The
`visited`-monotonicity is carried in the result type for termination. -/
def visitAll (data : List (NodeWithPos × List Char)) :
    (pending : List (List Char)) → (s : VisitSt) →
    { t : VisitSt // s.visited ⊆ t.visited }
  | [], s => ⟨s, Finset.Subset.refl _⟩
  | name :: rest, s =>
    if hv : name ∈ s.visited then
      let outer := visitAll data rest s
      ⟨outer.1, outer.2⟩
    else
      match hl : name_to_node_lookup data name with
      | none =>
        let outer := visitAll data rest s
        ⟨outer.1, outer.2⟩
      | some entry =>
        let inner := visitAll data entry.1.toNode.uses ⟨insert name s.visited, s.result⟩
        let s1 : VisitSt := ⟨inner.1.visited, inner.1.result ++ [entry]⟩
        let outer := visitAll data rest s1
        ⟨outer.1, by
          refine Finset.Subset.trans ?_ (Finset.Subset.trans inner.2 outer.2)
          exact Finset.subset_insert _ _⟩
termination_by pending s => ((topoNames data \ s.visited).card, pending.length)
decreasing_by
  · apply Prod.Lex.right
    simp
  · apply Prod.Lex.right
    simp
  · apply Prod.Lex.left
    apply Finset.card_lt_card
    constructor
    · intro x hx
      rw [Finset.mem_sdiff] at hx ⊢
      exact ⟨hx.1, fun hc => hx.2 (Finset.mem_insert_of_mem hc)⟩
    · intro hsub
      have hname : name ∈ topoNames data := by
        have hmem := List.mem_of_find?_eq_some hl
        have hp := List.find?_some hl
        rw [List.mem_reverse] at hmem
        simp only [decide_eq_true_eq] at hp
        simp only [topoNames, List.mem_toFinset, List.mem_map]
        exact ⟨entry, hmem, hp⟩
      have hmem2 : name ∈ topoNames data \ s.visited :=
        Finset.mem_sdiff.mpr ⟨hname, hv⟩
      have := hsub hmem2
      rw [Finset.mem_sdiff] at this
      exact this.2 (Finset.mem_insert_self _ _)
  · rcases Nat.lt_or_ge (topoNames data \ s1.visited).card
      (topoNames data \ s.visited).card with h | h
    · exact Prod.Lex.left _ _ h
    · have hle : (topoNames data \ s1.visited).card ≤ (topoNames data \ s.visited).card := by
        apply Finset.card_le_card
        intro x hx
        rw [Finset.mem_sdiff] at hx ⊢
        refine ⟨hx.1, fun hc => hx.2 ?_⟩
        exact inner.2 (Finset.mem_insert_of_mem hc)
      have heq : (topoNames data \ s1.visited).card = (topoNames data \ s.visited).card :=
        le_antisymm hle h
      rw [heq]
      apply Prod.Lex.right
      simp

/-- Python `topological_sort` (modify_lean.py). -/
def topological_sort (data : List (NodeWithPos × List Char)) : List (NodeWithPos × List Char) :=
  (visitAll data (data.map (fun p => p.1.name)) ⟨∅, []⟩).1.result

/-- The resolved dependency edge relation of the graph handed to
`topological_sort`: `u` depends on `v` when the node stored under key `u`
lists `v` among its uses and `v` is itself a known key. -/
def dependsOn (data : List (NodeWithPos × List Char)) (u v : List Char) : Prop :=
  ∃ p, name_to_node_lookup data u = some p ∧ v ∈ p.1.toNode.uses ∧ v ∈ topoNames data

/-- A dependency graph is acyclic when no name reaches itself through a
nonempty chain of resolved edges. -/
def Acyclic (data : List (NodeWithPos × List Char)) : Prop :=
  ∀ n, ¬ Relation.TransGen (dependsOn data) n n

/-! ### File-system model -/

/-- The file system: an association of path strings to file contents. -/
abbrev FSys : Type := List (List Char × List Char)

/-- Contents of the file at path `p`, when it exists. -/
def fsRead (fs : FSys) (p : List Char) : Option (List Char) :=
  (List.find? (fun e => e.1 = p) fs).map (fun e => e.2)

/-- `Path.exists()`. -/
def fsExists (fs : FSys) (p : List Char) : Bool :=
  (fsRead fs p).isSome

/-- `Path.write_text`: replace the contents at `p`, or create the file. -/
def fsWrite (fs : FSys) (p : List Char) (c : List Char) : FSys :=
  if (List.find? (fun e => e.1 = p) fs).isSome then
    fs.map (fun e => if e.1 = p then (p, c) else e)
  else fs ++ [(p, c)]

/-- The set of existing paths. -/
def fsPaths (fs : FSys) : Finset (List Char) :=
  (fs.map (fun e => e.1)).toFinset

/-! ### modify_lean.py : write_blueprint_attributes -/

/-- Lexicographic (code-point) strict order on strings, as Python compares
`str` values. -/
def strLt : List Char → List Char → Bool
  | [], [] => false
  | [], _ :: _ => true
  | _ :: _, [] => false
  | a :: as, b :: bs => if a.toNat < b.toNat then true else if a = b then strLt as bs else false

/-- Python tuple comparison on the sort key `(module, line)`. -/
def locKeyLe (x y : List Char × Nat) : Bool :=
  strLt x.1 y.1 || (x.1 = y.1 && decide (x.2 ≤ y.2))

/-- The sort key of `write_blueprint_attributes`:
`(n.location.module, n.location.range.pos.line)` with `("", 0)` for a
node without location. -/
def locKey (n : NodeWithPos) : List Char × Nat :=
  match n.location with
  | some loc => (loc.module, loc.range.pos.line)
  | none => ([], 0)

/-- `sorted(nodes, key=locKey, reverse=True)`: a stable descending sort
(ties keep their original order, as Python's `sorted` guarantees). -/
def nodes_location_order (nodes : List NodeWithPos) : List NodeWithPos :=
  nodes.mergeSort (fun a b => locKeyLe (locKey b) (locKey a))

/-- `[n for n, _ in topological_sort([(n, "") for n in nodes])]`. -/
def nodes_topological_order (nodes : List NodeWithPos) : List NodeWithPos :=
  (topological_sort (nodes.map (fun n => (n, [])))).map (fun p => p.1)

/-- Python `is_upstream_or_informal` (write_blueprint_attributes): no
location, or the location's root module is not one of the target
modules. -/
def is_upstream_or_informal (modules : List (List Char)) (node : NodeWithPos) : Bool :=
  match node.location with
  | none => true
  | some loc => !(modules.any (fun m => loc.module.takeWhile (fun c => c ≠ '.') = m))

/-- Python `upstream_or_informal_to_lean` (write_blueprint_attributes):
the stub rendering of an upstream or informal-only node. -/
def upstream_or_informal_to_lean (node : NodeWithPos) : List Char :=
  match node.location with
  | some _ =>
    ("attribute [".toList) ++
      node.toNode.to_lean_attribute true true true true true true ++
      ("] ".toList) ++ node.name
  | none =>
    let docPart : List Char :=
      if pyStrip node.statement.text ≠ [] then make_docstring node.statement.text 0 ++ ['\n']
      else []
    let attrPart : List Char :=
      ('@' :: '[' :: node.toNode.to_lean_attribute false false true false false true) ++
        (']' :: '\n' :: [])
    let body : List Char :=
      match node.proof with
      | none =>
        ("def ".toList) ++ node.name ++ (" : (sorry : Type) :=\n".toList) ++
          ("  sorry_using [".toList) ++
          (", ".toList).intercalate node.statement.all_uses ++ ("]".toList)
      | some p =>
        ("theorem ".toList) ++ node.name ++ (" : (sorry_using [".toList) ++
          (", ".toList).intercalate p.all_uses ++ ("] : Prop) := by\n".toList) ++
          (if pyStrip p.text ≠ [] then
            ("  ".toList) ++ make_docstring p.text 2 ++ ['\n']
           else []) ++
          ("  sorry_using [".toList) ++
          (", ".toList).intercalate node.statement.all_uses ++ ("]".toList)
    docPart ++ attrPart ++ body

/-- Append `v` to the entry of key `k` of the `prepends` dictionary (the
key is always present: it was initialised for every node name). -/
def assocAppend (m : List (List Char × List (List Char))) (k : List Char) (v : List Char) :
    List (List Char × List (List Char)) :=
  match m with
  | [] => []
  | e :: rest => if e.1 = k then (e.1, e.2 ++ [v]) :: rest else e :: assocAppend rest k v

/-- Read the entry of key `k` of the `prepends` dictionary. -/
def assocGet (m : List (List Char × List (List Char))) (k : List Char) : List (List Char) :=
  match List.find? (fun e => e.1 = k) m with
  | some e => e.2
  | none => []

/-- The first loop of `write_blueprint_attributes`: for each upstream or
informal-only node, in topological order, scan the remainder of the
topological order for the first normal node using it and queue the stub
as a prepend for it; with no such node the stub goes to `extra_nodes`
(Python's `for … else`). -/
def compute_prepends_extra (modules : List (List Char)) (nodes : List NodeWithPos)
    (topo : List NodeWithPos) :
    List (List Char × List (List Char)) × List (List Char) :=
  topo.foldl
    (fun acc node =>
      if is_upstream_or_informal modules node then
        match (topo.drop (topo.findIdx (fun m => m == node))).find?
            (fun m => !is_upstream_or_informal modules m &&
              (m.toNode.uses).contains node.name) with
        | some m => (assocAppend acc.1 m.name (upstream_or_informal_to_lean node), acc.2)
        | none => (acc.1, acc.2 ++ [upstream_or_informal_to_lean node])
      else acc)
    (nodes.map (fun n => (n.name, ([] : List (List Char)))), [])

/-- The main loop of `write_blueprint_attributes`: splice each normal
node (in reverse location order) into its file, collecting the set of
modified files (modelled as a duplicate-free list).  The `assert` of the
Python code corresponds to the unreachable `_, _` case. -/
def splice_phase (fs : FSys) (loc_order : List NodeWithPos) (modules : List (List Char))
    (prepends : List (List Char × List (List Char))) (add_uses : Bool) :
    FSys × List (List Char) :=
  loc_order.foldl
    (fun acc node =>
      if is_upstream_or_informal modules node then acc
      else
        match node.file, node.location with
        | some f, some loc =>
          let source := match fsRead acc.1 f with | some s => s | none => []
          let newSource :=
            modify_source_text node.toNode source loc add_uses (some (assocGet prepends node.name))
          (fsWrite acc.1 f newSource, if acc.2.contains f then acc.2 else acc.2 ++ [f])
        | _, _ => acc)
    (fs, [])

/-- The import loop of `write_blueprint_attributes`: add the generated
line once to every modified file. -/
def import_phase (fs : FSys) (files : List (List Char)) : FSys :=
  files.foldl
    (fun fs1 f =>
      let source := match fsRead fs1 f with | some s => s | none => []
      fsWrite fs1 f (add_blueprint_gen_import source))
    fs

/-- The final block of `write_blueprint_attributes`: append the import
line and the extra stubs to the root file (only when there are any). -/
def extra_phase (fs : FSys) (root_file : List Char) (extra_nodes : List (List Char)) : FSys :=
  if extra_nodes ≠ [] then
    let existing := match fsRead fs root_file with | some s => s | none => []
    fsWrite fs root_file
      (existing ++ ("import Architect".toList) ++ ('\n' :: '\n' :: []) ++
        (('\n' :: '\n' :: []).intercalate extra_nodes) ++ ['\n'])
  else fs

/-- Python `write_blueprint_attributes` (modify_lean.py), acting on the
file-system model (`convert_informal` is unused by the Python body as
well). -/
def write_blueprint_attributes (fs : FSys) (nodes : List NodeWithPos)
    (modules : List (List Char)) (root_file : List Char)
    (_convert_informal add_uses : Bool) : FSys :=
  let loc_order := nodes_location_order nodes
  let topo := nodes_topological_order nodes
  let pe := compute_prepends_extra modules nodes topo
  let sp := splice_phase fs loc_order modules pe.1 add_uses
  let fs2 := import_phase sp.1 sp.2
  extra_phase fs2 root_file pe.2

/-! ### parse_latex.py : read_latex_file (include resolver) -/

/-- `Path.parent` of a path string (`"."` when there is no separator, as
for `PosixPath`). -/
def parentDir (p : List Char) : List Char :=
  if p.contains '/' then ((p.reverse.dropWhile (fun c => c ≠ '/')).drop 1).reverse
  else (".".toList)

/-- The warning text of a circular (already expanded) inclusion. -/
def circularInputMsg (p : List Char) : List Char :=
  ("Circular \\input detected for file: ".toList) ++ p

/-- The warning text of a missing included file. -/
def inputNotFoundMsg (p : List Char) : List Char :=
  ("\\input file not found: ".toList) ++ p

/-- Match of the regex `\input\s*\{([^\}]*)\}` exactly at the head of
`s`: the captured argument and what follows the match (with a length
bound used for termination). -/
def matchInputAt (s : List Char) : Option (List Char × { r : List Char // r.length < s.length }) :=
  if h6 : ("\\input".toList).isPrefixOf s then
    match h2 : (s.drop 6).dropWhile isPyWs with
    | '{' :: r3 =>
      match h4 : r3.dropWhile (fun c => c ≠ '}') with
      | '}' :: r4 =>
        some (r3.takeWhile (fun c => c ≠ '}'), ⟨r4, by
          have hs : 6 ≤ s.length := by
            rw [List.isPrefixOf_iff_prefix] at h6
            simpa using h6.length_le
          have hr2 : ((s.drop 6).dropWhile isPyWs).length ≤ (s.drop 6).length :=
            (List.dropWhile_sublist _).length_le
          rw [h2] at hr2
          simp only [List.length_drop] at hr2
          have hr4 : (r3.dropWhile (fun c => c ≠ '}')).length ≤ r3.length :=
            (List.dropWhile_sublist _).length_le
          rw [h4] at hr4
          simp only [List.length_cons] at hr2 hr4
          omega⟩)
      | _ => none
    | _ => none
  else none

/-- The leftmost match of `\input\s*\{([^\}]*)\}` in `s` (the next match
found by `re.sub`): text before the match, the captured argument, and the
text after the match. -/
def findInputDirective : (s : List Char) →
    Option (List Char × List Char × { r : List Char // r.length < s.length })
  | [] => none
  | c :: cs =>
    match matchInputAt (c :: cs) with
    | some (arg, r) => some ([], arg, ⟨r.1, r.2⟩)
    | none =>
      match findInputDirective cs with
      | some (b, a, r) => some (c :: b, a, ⟨r.1, by
          have := r.2
          simp only [List.length_cons]
          omega⟩)
      | none => none

/-- State threaded through the include resolution: the `seen` set shared
by the whole recursion (Python passes one mutable set down every call)
and the warnings issued so far. -/
structure RSt where
  seen : Finset (List Char)
  warns : List (List Char)

/-- The body of `_read` in `read_latex_file` with the per-match work of
`re.sub(r"\input\s*\{([^\}]*)\}", replace_input, text)` inlined: the text
is scanned left to right; each directive is replaced by the recursive
expansion of the referenced file (empty text plus a warning when the file
is missing, or when it was already expanded, i.e. is in `seen`).
`replace_input` checks existence first; `_read` then tests and updates
`seen` and reads the file (the read can no longer fail).  Expanded text
is never rescanned by the enclosing substitution, exactly as `re.sub`
continues after the replaced span. -/
def resolveInputs (fs : FSys) (root_dir : List Char) (text : List Char) (st : RSt) :
    { p : List Char × RSt // st.seen ⊆ p.2.seen } :=
  match findInputDirective text with
    | none => ⟨(text, st), Finset.Subset.refl _⟩
    | some (before, arg0, after) =>
      let input_path0 := pyStrip arg0
      let input_path :=
        if (".tex".toList).isSuffixOf input_path0 then input_path0
        else input_path0 ++ (".tex".toList)
      let input_file := root_dir ++ '/' :: input_path
      if hex : fsExists fs input_file then
        if hseen : input_file ∈ st.seen then
          let rest := resolveInputs fs root_dir after.1
            ⟨st.seen, st.warns ++ [circularInputMsg input_file]⟩
          ⟨(before ++ rest.1.1, rest.1.2), rest.2⟩
        else
          let content := match fsRead fs input_file with | some c => c | none => []
          let inner := resolveInputs fs root_dir content
            ⟨insert input_file st.seen, st.warns⟩
          let rest := resolveInputs fs root_dir after.1 inner.1.2
          ⟨(before ++ inner.1.1 ++ rest.1.1, rest.1.2), by
            refine Finset.Subset.trans ?_ (Finset.Subset.trans inner.2 rest.2)
            exact Finset.subset_insert _ _⟩
      else
        let rest := resolveInputs fs root_dir after.1
          ⟨st.seen, st.warns ++ [inputNotFoundMsg input_file]⟩
        ⟨(before ++ rest.1.1, rest.1.2), rest.2⟩
termination_by ((fsPaths fs \ st.seen).card, text.length)
decreasing_by
  · apply Prod.Lex.right
    exact after.2
  · apply Prod.Lex.left
    apply Finset.card_lt_card
    constructor
    · intro x hx
      rw [Finset.mem_sdiff] at hx ⊢
      exact ⟨hx.1, fun hc => hx.2 (Finset.mem_insert_of_mem hc)⟩
    · intro hsub
      have hfile : input_file ∈ fsPaths fs := by
        unfold fsExists fsRead at hex
        rcases hfind : List.find? (fun e => e.1 = input_file) fs with _ | e
        · rw [hfind] at hex
          simp at hex
        · have he := List.mem_of_find?_eq_some hfind
          have hpe := List.find?_some hfind
          simp only [decide_eq_true_eq] at hpe
          simp only [fsPaths, List.mem_toFinset, List.mem_map]
          exact ⟨e, he, hpe⟩
      have hmem2 : input_file ∈ fsPaths fs \ st.seen :=
        Finset.mem_sdiff.mpr ⟨hfile, hseen⟩
      have := hsub hmem2
      rw [Finset.mem_sdiff] at this
      exact this.2 (Finset.mem_insert_self _ _)
  · rcases Nat.lt_or_ge (fsPaths fs \ inner.1.2.seen).card
      (fsPaths fs \ st.seen).card with h | h
    · exact Prod.Lex.left _ _ h
    · have hle : (fsPaths fs \ inner.1.2.seen).card ≤ (fsPaths fs \ st.seen).card := by
        apply Finset.card_le_card
        intro x hx
        rw [Finset.mem_sdiff] at hx ⊢
        refine ⟨hx.1, fun hc => hx.2 ?_⟩
        exact inner.2 (Finset.mem_insert_of_mem hc)
      have heq : (fsPaths fs \ inner.1.2.seen).card = (fsPaths fs \ st.seen).card :=
        le_antisymm hle h
      rw [heq]
      apply Prod.Lex.right
      exact after.2
  · apply Prod.Lex.right
    exact after.2

/-- Python `read_latex_file` (parse_latex.py): resolve the root file with
`root_dir` fixed to the root file's parent directory for the whole
recursion, the root itself marked as seen.  Returns the flattened text
and the warnings issued. -/
def read_latex_file (fs : FSys) (file : List Char) : List Char × List (List Char) :=
  let root_dir := parentDir file
  let content := match fsRead fs file with | some c => c | none => []
  let r := resolveInputs fs root_dir content ⟨{file}, []⟩
  (r.1.1, r.1.2.warns)

/-! ### parse_latex.py : directive extraction -/

/-- Python regex word character `\w` (ASCII). -/
def isWordChar (c : Char) : Bool :=
  c.isAlphanum || c = '_'

/-- Python `find_and_remove_command` (parse_latex.py): the regex
`\\<command>\b`, reported and removed at every occurrence. -/
def find_and_remove_command (cmd : List Char) (s : List Char) : Bool × List Char :=
  match s with
  | [] => (false, [])
  | c :: cs =>
    if ('\\' :: cmd).isPrefixOf (c :: cs) &&
       (match (c :: cs).drop (cmd.length + 1) with
        | [] => true
        | d :: _ => !isWordChar d) then
      let r := find_and_remove_command cmd ((c :: cs).drop (cmd.length + 1))
      (true, r.2)
    else
      let r := find_and_remove_command cmd cs
      (r.1, c :: r.2)
termination_by s.length
decreasing_by
  · simp only [List.length_cons, List.length_drop]
    omega
  · simp

/-- A match of the regex `\\<cmd>\s*\{([^\}]*)\}` exactly at the head of
`s`: the captured argument and the text after the match. -/
def matchCmdArgAt (cmd : List Char) (s : List Char) :
    Option (List Char × { r : List Char // r.length < s.length }) :=
  if hp : ('\\' :: cmd).isPrefixOf s then
    match h2 : (s.drop (cmd.length + 1)).dropWhile isPyWs with
    | '{' :: r3 =>
      match h4 : r3.dropWhile (fun c => c ≠ '}') with
      | '}' :: r4 =>
        some (r3.takeWhile (fun c => c ≠ '}'), ⟨r4, by
          have hs : cmd.length + 1 ≤ s.length := by
            rw [List.isPrefixOf_iff_prefix] at hp
            simpa using hp.length_le
          have hr2 : ((s.drop (cmd.length + 1)).dropWhile isPyWs).length ≤
              (s.drop (cmd.length + 1)).length :=
            (List.dropWhile_sublist _).length_le
          rw [h2] at hr2
          simp only [List.length_drop] at hr2
          have hr4 : (r3.dropWhile (fun c => c ≠ '}')).length ≤ r3.length :=
            (List.dropWhile_sublist _).length_le
          rw [h4] at hr4
          simp only [List.length_cons] at hr2 hr4
          omega⟩)
      | _ => none
    | _ => none
  else none

/-- All captured arguments of `\\<cmd>\s*\{([^\}]*)\}` in `s`, in order
(`re.findall`, non-overlapping, scanning left to right). -/
def findCmdArgs (cmd : List Char) : (s : List Char) → List (List Char)
  | [] => []
  | c :: cs =>
    match matchCmdArgAt cmd (c :: cs) with
    | some (arg, rest) => arg :: findCmdArgs cmd rest.1
    | none => findCmdArgs cmd cs
termination_by s => s.length
decreasing_by
  · exact rest.2
  · simp

/-- Removal of matches of `\\<cmd>\s*\{([^\}]*)\}` (`re.sub`): `budget`
`none` removes every occurrence (Python `count=0`), `some k` at most `k`
occurrences. -/
def removeCmdArgs (cmd : List Char) : (s : List Char) → (budget : Option Nat) → List Char
  | [], _ => []
  | c :: cs, budget =>
    if budget = some 0 then c :: cs
    else
      match matchCmdArgAt cmd (c :: cs) with
      | some (_, rest) => removeCmdArgs cmd rest.1 (budget.map (fun k => k - 1))
      | none => c :: removeCmdArgs cmd cs budget
termination_by s _ => s.length
decreasing_by
  · exact rest.2
  · simp

/-- Python `find_and_remove_command_arguments` (parse_latex.py): the
captured values of every occurrence, each split on commas and stripped,
and the source with the first `sub_count` occurrences removed
(`sub_count = 0` removes all). -/
def find_and_remove_command_arguments (cmd : List Char) (s : List Char) (sub_count : Nat) :
    List (List Char) × List Char :=
  let found := findCmdArgs cmd s
  let values := (found.map (fun m => (m.splitOn ',').map pyStrip)).flatten
  (values, removeCmdArgs cmd s (if sub_count = 0 then none else some sub_count))

/-- The warning of `find_and_remove_command_argument` for several
arguments. -/
def multipleArgsMsg (cmd : List Char) (args : List (List Char)) : List Char :=
  ("Multiple \\".toList) ++ cmd ++ (" arguments found: ".toList) ++
    (", ".toList).intercalate args ++ ("; only using the first one.".toList)

/-- Python `find_and_remove_command_argument` (parse_latex.py): the first
value (if any), the source with only the first occurrence removed, and
the warning issued when several values were found. -/
def find_and_remove_command_argument (cmd : List Char) (s : List Char) :
    Option (List Char) × List Char × List (List Char) :=
  let r := find_and_remove_command_arguments cmd s 1
  (r.1.head?, r.2, if 1 < r.1.length then [multipleArgsMsg cmd r.1] else [])

/-- A match of `\\end\s*\{<env>\}` exactly at the head of `s`, returning
the text after the match. -/
def matchEndAt (env : List Char) (s : List Char) :
    Option { r : List Char // r.length < s.length } :=
  if hp : ("\\end".toList).isPrefixOf s then
    match h2 : (s.drop 4).dropWhile isPyWs with
    | '{' :: r3 =>
      if hq : (env ++ ['}']).isPrefixOf r3 then
        some ⟨r3.drop (env.length + 1), by
          have hs : 4 ≤ s.length := by
            rw [List.isPrefixOf_iff_prefix] at hp
            simpa using hp.length_le
          have hr2 : ((s.drop 4).dropWhile isPyWs).length ≤ (s.drop 4).length :=
            (List.dropWhile_sublist _).length_le
          rw [h2] at hr2
          simp only [List.length_drop] at hr2
          simp only [List.length_cons, List.length_drop] at hr2 ⊢
          omega⟩
      else none
    | _ => none
  else none

/-- The lazy `(.*?)\\end\s*\{<env>\}`: the text up to the earliest match
of the end pattern, and the text after it. -/
def findEndSplit (env : List Char) : (s : List Char) →
    Option (List Char × { r : List Char // r.length ≤ s.length })
  | [] => none
  | c :: cs =>
    match matchEndAt env (c :: cs) with
    | some r => some ([], ⟨r.1, Nat.le_of_lt r.2⟩)
    | none =>
      match findEndSplit env cs with
      | some (b, r) => some (c :: b, ⟨r.1, by
          have := r.2
          simp only [List.length_cons]
          omega⟩)
      | none => none

/-- Backtracking over the candidate environment names of
`\\begin\s*\{(.*?)\}.*?\\end\s*\{\1\}`: the lazy group tries the text up
to each successive `}`; a candidate succeeds when the matching end
pattern occurs later.  `eAcc` holds the part of the candidate accumulated
over earlier failed splits, `t` the text still to the right.  Returns
the text after the whole match. -/
def tryEnvSplits (eAcc : List Char) (t : List Char) :
    Option { rest : List Char // rest.length ≤ t.length } :=
    let seg := t.takeWhile (fun c => c ≠ '}')
    match h : t.dropWhile (fun c => c ≠ '}') with
    | '}' :: t2 =>
      match findEndSplit (eAcc ++ seg) t2 with
      | some (_, r) => some ⟨r.1, by
          have hd : (t.dropWhile (fun c => c ≠ '}')).length ≤ t.length :=
            (List.dropWhile_sublist _).length_le
          rw [h] at hd
          have := r.2
          simp only [List.length_cons] at hd
          omega⟩
      | none =>
        match tryEnvSplits (eAcc ++ seg ++ ['}']) t2 with
        | some r => some ⟨r.1, by
            have hd : (t.dropWhile (fun c => c ≠ '}')).length ≤ t.length :=
              (List.dropWhile_sublist _).length_le
            rw [h] at hd
            have := r.2
            simp only [List.length_cons] at hd
            omega⟩
        | none => none
    | _ => none
termination_by t.length
decreasing_by
  · have hd : (t.dropWhile (fun c => c ≠ '}')).length ≤ t.length :=
      (List.dropWhile_sublist _).length_le
    rw [h] at hd
    simp only [List.length_cons] at hd
    omega

/-- A match of `\\begin\s*\{(.*?)\}.*?\\end\s*\{\1\}` exactly at the head
of `s` (used by `remove_environments`), returning the text after the
match. -/
def matchBeginEnvAt (s : List Char) : Option { r : List Char // r.length < s.length } :=
  if hp : ("\\begin".toList).isPrefixOf s then
    match h2 : (s.drop 6).dropWhile isPyWs with
    | '{' :: r3 =>
      match tryEnvSplits [] r3 with
      | some rest => some ⟨rest.1, by
          have hs : 6 ≤ s.length := by
            rw [List.isPrefixOf_iff_prefix] at hp
            simpa using hp.length_le
          have hr2 : ((s.drop 6).dropWhile isPyWs).length ≤ (s.drop 6).length :=
            (List.dropWhile_sublist _).length_le
          rw [h2] at hr2
          simp only [List.length_drop] at hr2
          have := rest.2
          simp only [List.length_cons] at hr2
          omega⟩
      | none => none
    | _ => none
  else none

/-- The inner `remove_environments` of
`parse_and_remove_blueprint_commands`:
`re.sub(r"\begin\s*\{(.*?)\}.*?\end\s*\{\1\}", "", source, flags=DOTALL)`. -/
def remove_environments : (s : List Char) → List Char
  | [] => []
  | c :: cs =>
    match matchBeginEnvAt (c :: cs) with
    | some rest => remove_environments rest.1
    | none => c :: remove_environments cs
termination_by s => s.length
decreasing_by
  · exact rest.2
  · simp

/-- Replacement of every literal occurrence of `pat` (Python
`str.replace(pat, "")`; the patterns used are never empty). -/
def removeAllSub (pat : List Char) : (s : List Char) → List Char
  | [] => []
  | c :: cs =>
    if pat.isEmpty then c :: cs
    else if hp : pat.isPrefixOf (c :: cs) then
      removeAllSub pat ((c :: cs).drop pat.length)
    else c :: removeAllSub pat cs
termination_by s => s.length
decreasing_by
  · have hs : pat.length ≤ (c :: cs).length := by
      rw [List.isPrefixOf_iff_prefix] at hp
      simpa using hp.length_le
    have hne : pat.length ≠ 0 := by
      intro h0
      rw [List.length_eq_zero] at h0
      subst h0
      simp [List.isEmpty] at *
    simp only [List.length_cons, List.length_drop] at hs ⊢
    omega
  · simp

/-- Python `SourceInfo` (parse_latex.py). -/
structure SourceInfo where
  label : Option (List Char)
  uses : List (List Char)
  alsoIn : List (List Char)
  proves : Option (List Char)
  leanok : Bool
  notready : Bool
  mathlibok : Bool
  lean : Option (List Char)
  discussion : Option Int
deriving DecidableEq

/-- Digits with the underscore rules of Python `int(str)`: an underscore
must stand between two digits. -/
def pyDigitsGo (acc : Nat) : List Char → Option Nat
  | [] => some acc
  | '_' :: rest =>
    match rest with
    | d :: rest2 => if d.isDigit then pyDigitsGo (acc * 10 + (d.toNat - 48)) rest2 else none
    | [] => none
  | d :: rest => if d.isDigit then pyDigitsGo (acc * 10 + (d.toNat - 48)) rest else none

/-- A nonempty digit group (must start with a digit). -/
def pyDigits (s : List Char) : Option Nat :=
  match s with
  | d :: _ => if d.isDigit then pyDigitsGo 0 s else none
  | [] => none

/-- Python `int(str)` on ASCII input: optional surrounding whitespace,
optional sign, digits with single underscores between digits. -/
def pyParseInt (s : List Char) : Option Int :=
  match pyStrip s with
  | '+' :: rest => (pyDigits rest).map (fun n => (n : Int))
  | '-' :: rest => (pyDigits rest).map (fun n => -(n : Int))
  | t => (pyDigits t).map (fun n => (n : Int))

/-- Python `try_int` (parse_latex.py): `int(s)` with `ValueError` mapped
to `None`. -/
def try_int : Option (List Char) → Option Int
  | none => none
  | some s => pyParseInt s

/-- Python `remove_nonbreaking_spaces` (parse_latex.py):
`re.sub(r"(?<!\\)~", " ", source)` (the lookbehind inspects the original
character) followed by `strip`. -/
def replaceNbsp : (prev : Option Char) → List Char → List Char
  | _, [] => []
  | prev, c :: cs =>
    if c = '~' && prev ≠ some '\\' then ' ' :: replaceNbsp (some c) cs
    else c :: replaceNbsp (some c) cs

/-- Python `remove_nonbreaking_spaces` (parse_latex.py). -/
def remove_nonbreaking_spaces (s : List Char) : List Char :=
  pyStrip (replaceNbsp none s)

/-- The intermediate state of `parse_and_remove_blueprint_commands` after
the steps before the `discussion` extraction (the straight-line Python
body, cut just before its last extraction so the final step can be
reasoned about in isolation). -/
structure PreDiscussion where
  label : Option (List Char)
  uses : List (List Char)
  alsoIn : List (List Char)
  proves : Option (List Char)
  leanok : Bool
  notready : Bool
  mathlibok : Bool
  lean : Option (List Char)
  residual : List Char
  warns : List (List Char)

/-- The text Python interpolates for the label when removing
`\label{...}` manually (`f"\\label{{{label}}}"` renders `None` for a
missing label). -/
def labelText : Option (List Char) → List Char
  | some l => l
  | none => ("None".toList)

/-- Steps of `parse_and_remove_blueprint_commands` before the
`discussion` extraction, in the Python order: label (searched in a copy
with inner environments removed, removed from the source manually), uses,
alsoIn, proves, leanok, notready, mathlibok, lean. -/
def parse_steps_before_discussion (source : List Char) : PreDiscussion :=
  let lr := find_and_remove_command_argument ("label".toList) (remove_environments source)
  let label := lr.1
  let source1 := removeAllSub (("\\label".toList) ++ '{' :: labelText label ++ ['}']) source
  let ur := find_and_remove_command_arguments ("uses".toList) source1 0
  let ar := find_and_remove_command_arguments ("alsoIn".toList) ur.2 0
  let pr := find_and_remove_command_argument ("proves".toList) ar.2
  let l1 := find_and_remove_command ("leanok".toList) pr.2.1
  let n1 := find_and_remove_command ("notready".toList) l1.2
  let m1 := find_and_remove_command ("mathlibok".toList) n1.2
  let le1 := find_and_remove_command_argument ("lean".toList) m1.2
  { label := label, uses := ur.1, alsoIn := ar.1, proves := pr.1,
    leanok := l1.1, notready := n1.1, mathlibok := m1.1, lean := le1.1,
    residual := le1.2.1, warns := lr.2.2 ++ pr.2.2 ++ le1.2.2 }

/-- Python `parse_and_remove_blueprint_commands` (parse_latex.py):
the structured record, the residual stripped prose, and the warnings. -/
def parse_and_remove_blueprint_commands (source : List Char) :
    SourceInfo × List Char × List (List Char) :=
  let p := parse_steps_before_discussion source
  let d1 := find_and_remove_command_argument ("discussion".toList) p.residual
  (⟨p.label, p.uses, p.alsoIn, p.proves, p.leanok, p.notready, p.mathlibok, p.lean,
    try_int d1.1⟩,
   pyStrip d1.2.1,
   p.warns ++ d1.2.2)

/-- Python `process_source` (parse_latex.py). -/
def process_source (source : List Char) : SourceInfo × List Char × List (List Char) :=
  parse_and_remove_blueprint_commands (remove_nonbreaking_spaces source)

/-! ### parse_latex.py : reference rewriting and node parsing -/

/-- The reference commands recognised by `convert_ref_to_verb`. -/
def refCommands : List (List Char) :=
  [("ref".toList), ("cref".toList), ("Cref".toList), ("vref".toList),
   ("eqref".toList), ("autoref".toList)]

/-- The first command of an alternation whose argument pattern matches at
the head of `s` (regex alternatives are tried left to right). -/
def firstCmdMatch : (cmds : List (List Char)) → (s : List Char) →
    Option (List Char × { r : List Char // r.length < s.length })
  | [], _ => none
  | cmd :: more, s =>
    match matchCmdArgAt cmd s with
    | some r => some r
    | none => firstCmdMatch more s

/-- The replacement callback `replace_ref` of `convert_ref_to_verb`:
labels are comma-split and stripped; a known label becomes a verbatim
marker with the node's Lean name, an unknown label containing an
underscore a verbatim marker with the label, anything else stays a
reference.  `label_to_node` is the label dictionary with node names as
values. -/
def replaceRefArg (label_to_node : List (List Char × List Char)) (arg : List Char) :
    List Char :=
  let labels := (arg.splitOn ',').map pyStrip
  (", ".toList).intercalate (labels.map (fun label =>
    match List.find? (fun e => e.1 = label) label_to_node with
    | some e => ("\\verb|".toList) ++ e.2 ++ ['|']
    | none =>
      if label.contains '_' then ("\\verb|".toList) ++ label ++ ['|']
      else ("\\ref".toList) ++ '{' :: label ++ ['}']))

/-- The scan of `re.sub(r"\\(?:ref|cref|Cref|vref|eqref|autoref)\s*\{([^\}]*)\}", …)`. -/
def convertRefScan (label_to_node : List (List Char × List Char)) :
    (s : List Char) → List Char
  | [] => []
  | c :: cs =>
    match firstCmdMatch refCommands (c :: cs) with
    | some (arg, rest) => replaceRefArg label_to_node arg ++ convertRefScan label_to_node rest.1
    | none => c :: convertRefScan label_to_node cs
termination_by s => s.length
decreasing_by
  · exact rest.2
  · simp

/-- Python `convert_ref_to_verb` (parse_latex.py). -/
def convert_ref_to_verb (source : List Char) (label_to_node : List (List Char × List Char)) :
    List Char :=
  pyStrip (convertRefScan label_to_node source)

/-- Python `convert_latex_label_to_lean_name` (parse_latex.py): move each
raw use whose label is known into the resolved set (set `add` and
`remove` modelled on the duplicate-free lists), and rewrite the prose. -/
def convert_latex_label_to_lean_name (node_part : NodePart)
    (label_to_node : List (List Char × List Char)) : NodePart :=
  let r := node_part.uses_raw.foldl
    (fun (acc : List (List Char) × List (List Char)) use =>
      match List.find? (fun e => e.1 = use) label_to_node with
      | some e => ((if acc.1.contains e.2 then acc.1 else acc.1 ++ [e.2]), acc.2.erase use)
      | none => acc)
    (node_part.uses, node_part.uses_raw)
  { node_part with
      uses := r.1,
      uses_raw := r.2,
      text := convert_ref_to_verb node_part.text label_to_node }

/-- `base.split(":")[-1]`, hyphens and spaces to underscores, a leading
underscore before a leading digit (the identifier synthesis of
`generate_new_lean_name`). -/
def sanitizeBase (base : List Char) : List Char :=
  let b := ((base.splitOn ':').getLast?).getD []
  let b := b.map (fun c => if c = '-' then '_' else if c = ' ' then '_' else c)
  match b with
  | c :: _ => if c.isDigit then '_' :: b else b
  | [] => b

/-- The collision loop of `generate_new_lean_name`: append a fresh hex
draw while the candidate is taken.  The randomness source
(`uuid.uuid4().hex`) is external; it is modelled by the explicit stream
`rand` from which each draw takes the next element; with the stream
exhausted the current candidate is returned (the Python code would keep
drawing fresh randomness, so a long enough stream models every real
run). -/
def gen_name_loop (visited : List (List Char)) : (base : List Char) →
    (rand : List (List Char)) → List Char × List (List Char)
  | base, rand =>
    if visited.contains base then
      match rand with
      | h :: rest => gen_name_loop visited (base ++ '_' :: h) rest
      | [] => (base, [])
    else (base, rand)
termination_by _ rand => rand.length

/-- Python `generate_new_lean_name` (parse_latex.py); reachable only with
`convert_informal` set. -/
def generate_new_lean_name (rand : List (List Char)) (visited_names : List (List Char))
    (base : Option (List Char)) : List Char × List (List Char) :=
  match base with
  | none =>
    match rand with
    | h :: rest => gen_name_loop visited_names (("node_".toList) ++ h) rest
    | [] => gen_name_loop visited_names (("node_".toList) ++ ("0".toList)) []
  | some b => gen_name_loop visited_names (sanitizeBase b) rand

/-- One match of `ENV_PATTERN` in `parse_nodes`: the environment name,
the optional bracketed title, the content, the match's start offset and
the raw matched text (`group(0)`). -/
structure EnvMatch where
  env : List Char
  title : Option (List Char)
  content : List Char
  start : Nat
  raw : List Char
deriving DecidableEq

/-- Backtracking over the candidate titles of `(?:\[(.*?)\])?`: the lazy
group tries each successive `]`; a candidate succeeds when the content
and end pattern match after it.  Returns the title, the content and the
text after the whole match. -/
def tryTitleSplits (e : List Char) (tAcc : List Char) (t : List Char) :
    Option (List Char × List Char × { r : List Char // r.length ≤ t.length }) :=
  let seg := t.takeWhile (fun c => c ≠ ']')
  match h : t.dropWhile (fun c => c ≠ ']') with
  | ']' :: t2 =>
    match findEndSplit e t2 with
    | some (content, r) => some (tAcc ++ seg, content, ⟨r.1, by
        have hd : (t.dropWhile (fun c => c ≠ ']')).length ≤ t.length :=
          (List.dropWhile_sublist _).length_le
        rw [h] at hd
        have := r.2
        simp only [List.length_cons] at hd
        omega⟩)
    | none =>
      match tryTitleSplits e (tAcc ++ seg ++ [']']) t2 with
      | some (title, content, r) => some (title, content, ⟨r.1, by
          have hd : (t.dropWhile (fun c => c ≠ ']')).length ≤ t.length :=
            (List.dropWhile_sublist _).length_le
          rw [h] at hd
          have := r.2
          simp only [List.length_cons] at hd
          omega⟩)
      | none => none
  | _ => none
termination_by t.length
decreasing_by
  · have hd : (t.dropWhile (fun c => c ≠ ']')).length ≤ t.length :=
      (List.dropWhile_sublist _).length_le
    rw [h] at hd
    simp only [List.length_cons] at hd
    omega

/-- After `\begin{<e>}` was consumed: `\s*` (maximal, as the later parts
cannot match inside the whitespace run), then the optional bracketed
title with backtracking, then the lazy content up to the earliest
matching end pattern. -/
def matchEnvNamed (e : List Char) (r4 : List Char) :
    Option (Option (List Char) × List Char × { r : List Char // r.length ≤ r4.length }) :=
  match hm : r4.dropWhile isPyWs with
  | '[' :: t =>
    match tryTitleSplits e [] t with
    | some (title, content, rest) => some (some title, content, ⟨rest.1, by
        have hw : (r4.dropWhile isPyWs).length ≤ r4.length :=
          (List.dropWhile_sublist _).length_le
        rw [hm] at hw
        have := rest.2
        simp only [List.length_cons] at hw
        omega⟩)
    | none =>
      match findEndSplit e ('[' :: t) with
      | some (content, rest) => some (none, content, ⟨rest.1, by
          have hw : (r4.dropWhile isPyWs).length ≤ r4.length :=
            (List.dropWhile_sublist _).length_le
          rw [hm] at hw
          have h2 := rest.2
          simp only [List.length_cons] at hw h2
          omega⟩)
      | none => none
  | w' =>
    match findEndSplit e w' with
    | some (content, rest) => some (none, content, ⟨rest.1, by
        have hw : (r4.dropWhile isPyWs).length ≤ r4.length :=
          (List.dropWhile_sublist _).length_le
        rw [hm] at hw
        have := rest.2
        omega⟩)
    | none => none

/-- The alternation `(<env1>|<env2>|…)\}` of `ENV_PATTERN`: alternatives
are tried left to right, and an alternative is kept only when the rest of
the pattern matches after it. -/
def matchEnvAlts : (alts : List (List Char)) → (r3 : List Char) →
    Option (List Char × Option (List Char) × List Char ×
      { r : List Char // r.length ≤ r3.length })
  | [], _ => none
  | e :: more, r3 =>
    if hq : (e ++ ['}']).isPrefixOf r3 then
      match matchEnvNamed e (r3.drop (e.length + 1)) with
      | some (title, content, rest) => some (e, title, content, ⟨rest.1, by
          have := rest.2
          simp only [List.length_drop] at this
          omega⟩)
      | none => matchEnvAlts more r3
    else matchEnvAlts more r3

/-- A match of `ENV_PATTERN` exactly at the head of `s`. -/
def matchBeginAnyAt (envs : List (List Char)) (s : List Char) :
    Option (List Char × Option (List Char) × List Char ×
      { r : List Char // r.length < s.length }) :=
  if hp : ("\\begin".toList).isPrefixOf s then
    match h2 : (s.drop 6).dropWhile isPyWs with
    | '{' :: r3 =>
      match matchEnvAlts envs r3 with
      | some (e, title, content, rest) => some (e, title, content, ⟨rest.1, by
          have hs : 6 ≤ s.length := by
            rw [List.isPrefixOf_iff_prefix] at hp
            simpa using hp.length_le
          have hr2 : ((s.drop 6).dropWhile isPyWs).length ≤ (s.drop 6).length :=
            (List.dropWhile_sublist _).length_le
          rw [h2] at hr2
          simp only [List.length_drop] at hr2
          have := rest.2
          simp only [List.length_cons] at hr2
          omega⟩)
      | none => none
    | _ => none
  else none

/-- `ENV_PATTERN.finditer(source)`: non-overlapping matches, scanning
left to right, each annotated with its start offset and raw text. -/
def env_finditer (envs : List (List Char)) : (s : List Char) → (pos : Nat) → List EnvMatch
  | [], _ => []
  | c :: cs, pos =>
    match matchBeginAnyAt envs (c :: cs) with
    | some (e, title, content, rest) =>
      let len := (c :: cs).length - rest.1.length
      { env := e, title := title, content := content, start := pos,
        raw := (c :: cs).take len } :: env_finditer envs rest.1 (pos + len)
    | none => env_finditer envs cs (pos + 1)
termination_by s _ => s.length
decreasing_by
  · exact rest.2
  · simp

/-- One candidate position for the `\bthms\s*=\s*` part of the
`\usepackage` options regex: the text before `i` (inside the bracket) is
free of `]`, a word boundary precedes, and `thms`, optional whitespace,
`=`, optional whitespace, then the captured `[^,\]\}]*` run follows. -/
def tryThmsAt (region : List Char) (i : Nat) : Option (List Char) :=
  let suff := region.drop i
  if ("thms".toList).isPrefixOf suff &&
     (match (region.take i).getLast? with
      | none => true
      | some c => !isWordChar c) then
    match (suff.drop 4).dropWhile isPyWs with
    | '=' :: r3 =>
      some ((r3.dropWhile isPyWs).takeWhile (fun c => !(c = ',' || c = ']' || c = '}')))
    | _ => none
  else none

/-- The greedy `[^\]]*\bthms…` inside the bracket: the rightmost
candidate before the first `]` wins. -/
def tryThmsGreedy (region : List Char) : Option (List Char) :=
  let zone := region.takeWhile (fun c => c ≠ ']')
  ((List.range (zone.length + 1)).reverse).findSome? (fun i => tryThmsAt region i)

/-- A match of the `\usepackage` options regex exactly at the head of
`s`. -/
def matchUsepackageAt (s : List Char) : Option (List Char) :=
  if ("\\usepackage".toList).isPrefixOf s then
    match (s.drop 11).dropWhile isPyWs with
    | '[' :: region => tryThmsGreedy region
    | _ => none
  else none

/-- `re.search(r"\\usepackage\s*\[[^\]]*\bthms\s*=\s*([^,\]\}]*)", source)`:
the capture of the leftmost match. -/
def findUsepackageThms : (s : List Char) → Option (List Char)
  | [] => none
  | c :: cs =>
    match matchUsepackageAt (c :: cs) with
    | some cap => some cap
    | none => findUsepackageThms cs

/-- The active statement kinds of `parse_nodes`: the `thms=` document
option split on `+`, or the default five kinds. -/
def depgraph_thm_types (source : List Char) : List (List Char) :=
  match findUsepackageThms source with
  | some cap => (pyStrip cap).splitOn '+'
  | none =>
    [("definition".toList), ("lemma".toList), ("proposition".toList),
     ("theorem".toList), ("corollary".toList)]

/-- The comment check of `parse_nodes`:
`"%" in source[:start].split("\n")[-1].strip()`. -/
def isCommentedAt (source : List Char) (start : Nat) : Bool :=
  (pyStrip (((source.take start).reverse.takeWhile (fun c => c ≠ '\n')).reverse)).contains '%'

/-- Set a key of a string-valued dictionary (overwriting). -/
def dictSetStr (m : List (List Char × List Char)) (k v : List Char) :
    List (List Char × List Char) :=
  if (List.find? (fun e => e.1 = k) m).isSome then
    m.map (fun e => if e.1 = k then (k, v) else e)
  else m ++ [(k, v)]

/-- `d.setdefault(k, []).append(v)` on a list-valued dictionary. -/
def dictAppendCreate (m : List (List Char × List (List Char))) (k : List Char) (v : List Char) :
    List (List Char × List (List Char)) :=
  if (List.find? (fun e => e.1 = k) m).isSome then assocAppend m k v
  else m ++ [(k, [v])]

/-- Deduplication keeping the first occurrence: the `set(...)`
constructor on a list, modelled in insertion order. -/
def dedupKeepFirst : (l : List (List Char)) → List (List Char)
  | [] => []
  | x :: xs => x :: dedupKeepFirst (xs.filter (fun y => y ≠ x))
termination_by l => l.length
decreasing_by
  · exact Nat.lt_of_le_of_lt (List.length_filter_le _ _) (by simp)

/-- Warning text for a node without a LaTeX label. -/
def noLabelMsg (name : List Char) : List Char :=
  ("Did not find a LaTeX label for ".toList) ++ name

/-- Warning text for a repeated Lean name. -/
def duplicateNameMsg (name : List Char) : List Char :=
  ("Lean name ".toList) ++ _quote name ++
    (" occurs in blueprint multiple times; only keeping the first.".toList)

/-- Warning text for a proof with no determinable statement. -/
def cannotDetermineMsg (node_source : List Char) : List Char :=
  ("Cannot determine the statement proved by: ".toList) ++ node_source

/-- The mutable state of the two loops of `parse_nodes`.  Python's
`match_idx_to_node`, `name_to_node` and `label_to_node` hold references
to the node objects; since names are unique by construction, the
references are modelled by the names, and the node list is the single
owner. -/
structure ParseSt where
  match_idx_to_node : List (Nat × Option (List Char))
  nodes : List Node
  label_to_node : List (List Char × List Char)
  name_to_raw_sources : List (List Char × List (List Char))
  warns : List (List Char)
  rand : List (List Char)
deriving DecidableEq

/-- The tail of one statement-loop iteration once the name is known:
record the raw source, warn about and reuse a duplicate name or create
the node, record the match index and the label. -/
def stmt_make (st : ParseSt) (warns' : List (List Char)) (i : Nat) (m : EnvMatch)
    (info : SourceInfo) (node_source : List Char) (name : List Char)
    (rand' : List (List Char)) : ParseSt :=
  let raw' := dictAppendCreate st.name_to_raw_sources name m.raw
  let st1 :=
    match List.find? (fun n => n.name = name) st.nodes with
    | some _ =>
      { st with
          warns := warns' ++ [duplicateNameMsg name],
          name_to_raw_sources := raw',
          rand := rand' }
    | none =>
      let node : Node :=
        { name := name,
          statement :=
            { lean_ok := info.leanok, text := node_source, uses := [],
              uses_raw := dedupKeepFirst info.uses, latex_env := m.env },
          proof := none, not_ready := info.notready, discussion := info.discussion,
          title := m.title }
      { st with
          warns := warns',
          nodes := st.nodes ++ [node],
          name_to_raw_sources := raw',
          rand := rand' }
  let st2 := { st1 with match_idx_to_node := st1.match_idx_to_node ++ [(i, some name)] }
  match info.label with
  | some lab => { st2 with label_to_node := dictSetStr st2.label_to_node lab name }
  | none => st2

/-- One iteration of the statement loop of `parse_nodes`. -/
def stmt_step (thm_types : List (List Char)) (convert_informal : Bool) (source : List Char)
    (st : ParseSt) (im : Nat × EnvMatch) : ParseSt :=
  let i := im.1
  let m := im.2
  if !(thm_types.contains m.env) then st
  else if isCommentedAt source m.start then st
  else
    let ps := process_source m.content
    let info := ps.1
    let node_source := ps.2.1
    let pwarns := ps.2.2
    match info.lean with
    | some name0 =>
      let w2 := if info.label.isNone then [noLabelMsg name0] else []
      stmt_make st (st.warns ++ pwarns ++ w2) i m info node_source name0 st.rand
    | none =>
      if !convert_informal then
        { st with
            warns := st.warns ++ pwarns,
            match_idx_to_node := st.match_idx_to_node ++ [(i, none)] }
      else
        let g := generate_new_lean_name st.rand (st.nodes.map (fun n => n.name)) info.label
        stmt_make st (st.warns ++ pwarns) i m info node_source g.1 g.2

/-- Attach a proof part to the node with name `name` (`proved.proof = …`
plus the raw-source append). -/
def attach_proof (st : ParseSt) (name : List Char) (info : SourceInfo)
    (node_source : List Char) (m : EnvMatch) : ParseSt :=
  let part : NodePart :=
    { lean_ok := info.leanok, text := node_source, uses := [],
      uses_raw := dedupKeepFirst info.uses, latex_env := m.env }
  { st with
    nodes := st.nodes.map (fun n => if n.name = name then { n with proof := some part } else n),
    name_to_raw_sources := dictAppendCreate st.name_to_raw_sources name m.raw }

/-- One iteration of the proof loop of `parse_nodes`.  `none` is the
uncaught `KeyError` raised by `label_to_node[proves]` for an unknown
`\proves` label (fatal to the run).  The index arithmetic `i - 1` is
Python's: for `i = 0` the key `-1` is never present. -/
def proof_step (source : List Char) (st : ParseSt) (im : Nat × EnvMatch) : Option ParseSt :=
  let i := im.1
  let m := im.2
  if m.env ≠ ("proof".toList) then some st
  else if isCommentedAt source m.start then some st
  else
    let ps := process_source m.content
    let info := ps.1
    let node_source := ps.2.1
    let st1 := { st with warns := st.warns ++ ps.2.2 }
    match info.proves with
    | some proves =>
      match List.find? (fun e => e.1 = proves) st1.label_to_node with
      | none => none
      | some e => some (attach_proof st1 e.2 info node_source m)
    | none =>
      match (if i = 0 then none
             else List.find? (fun e => e.1 = i - 1) st1.match_idx_to_node) with
      | some e =>
        match e.2 with
        | none => some st1
        | some name => some (attach_proof st1 name info node_source m)
      | none => some { st1 with warns := st1.warns ++ [cannotDetermineMsg node_source] }

/-- Python `parse_nodes` (parse_latex.py): the statement pass, the proof
pass (whose `KeyError` on an unknown `\proves` label makes the whole
result `none`), and the final label-resolution pass.  Returns the node
list, the raw-source dictionary, the label dictionary (node names as
values) and the warnings. -/
def parse_nodes (rand : List (List Char)) (source : List Char) (convert_informal : Bool) :
    Option (List Node × List (List Char × List (List Char)) ×
      List (List Char × List Char) × List (List Char)) :=
  let thm_types := depgraph_thm_types source
  let envs := thm_types ++ [("proof".toList)]
  let indexed := (env_finditer envs source 0).enum
  let st1 := indexed.foldl (stmt_step thm_types convert_informal source)
    { match_idx_to_node := [], nodes := [], label_to_node := [],
      name_to_raw_sources := [], warns := [], rand := rand }
  match indexed.foldlM (proof_step source) st1 with
  | none => none
  | some st2 =>
    let nodes' := st2.nodes.map (fun n =>
      { n with
        statement := convert_latex_label_to_lean_name n.statement st2.label_to_node,
        proof := n.proof.map (fun p => convert_latex_label_to_lean_name p st2.label_to_node) })
    some (nodes', st2.name_to_raw_sources, st2.label_to_node, st2.warns)

/-! ### Specification-side rendering of the annotation synthesizer

The specification describes the synthesizer as an explicit ordered list
of (inclusion predicate, rendered configuration line) pairs.  Two
versions are set up: `spec_attribute_fields` states the claim's
inclusion policy literally (title whenever present, discussion handle
whenever set); `spec_attribute_fields_amended` restricts the title to
nonempty ones and the discussion handle to nonzero ones. -/

/-- Keep the rendered lines whose inclusion predicate holds, in order. -/
def render_spec_fields (fields : List (Bool × List Char)) : List (List Char) :=
  fields.foldr (fun bx acc => if bx.1 then bx.2 :: acc else acc) []

/-- The fixed field order with the claim's inclusion policy: title
whenever present, the three statement fields and three proof fields
under their flags (and nonemptiness of the rendered data), the not-ready
flag whenever set, the discussion handle whenever set, the
environment-kind override exactly when the kind deviates from the
default implied by the presence of a proof. -/
def spec_attribute_fields (n : Node)
    (add_statement_text add_uses add_uses_raw add_proof_text add_proof_uses
      add_proof_uses_raw : Bool) : List (Bool × List Char) :=
  [(n.title.isSome,
    match n.title with | some t => _quote t | none => []),
   (add_statement_text && pyStrip n.statement.text ≠ [],
    ("(statement := ".toList) ++ make_docstring n.statement.text 2 ++ (")".toList)),
   (add_uses && n.statement.uses ≠ [],
    ("(uses := [".toList) ++ (", ".toList).intercalate n.statement.uses ++ ("])".toList)),
   (add_uses_raw && n.statement.uses_raw ≠ [],
    ("(uses := [".toList) ++ (", ".toList).intercalate (n.statement.uses_raw.map _quote) ++
      ("])".toList)),
   (add_proof_text && (match n.proof with | some p => pyStrip p.text ≠ [] | none => false),
    match n.proof with
    | some p => ("(proof := ".toList) ++ make_docstring p.text 2 ++ (")".toList)
    | none => []),
   (add_proof_uses && (match n.proof with | some p => p.uses ≠ [] | none => false),
    match n.proof with
    | some p => ("(proofUses := [".toList) ++ (", ".toList).intercalate p.uses ++ ("])".toList)
    | none => []),
   (add_proof_uses_raw && (match n.proof with | some p => p.uses_raw ≠ [] | none => false),
    match n.proof with
    | some p =>
      ("(proofUses := [".toList) ++ (", ".toList).intercalate (p.uses_raw.map _quote) ++
        ("])".toList)
    | none => []),
   (n.not_ready, ("(notReady := true)".toList)),
   (n.discussion.isSome,
    match n.discussion with
    | some d => ("(discussion := ".toList) ++ (toString d).toList ++ (")".toList)
    | none => []),
   ((n.proof.isNone && n.statement.latex_env ≠ ("definition".toList)) ||
      (n.proof.isSome && n.statement.latex_env ≠ ("theorem".toList)),
    ("(latexEnv := ".toList) ++ _quote n.statement.latex_env ++ (")".toList))]

/-- The synthesized attribute as the claim describes it. -/
def spec_to_lean_attribute (n : Node)
    (add_statement_text add_uses add_uses_raw add_proof_text add_proof_uses
      add_proof_uses_raw : Bool) : List Char :=
  ("blueprint".toList) ++
    ((render_spec_fields (spec_attribute_fields n add_statement_text add_uses add_uses_raw
        add_proof_text add_proof_uses add_proof_uses_raw)).map
      (fun c => ('\n' :: ' ' :: ' ' :: c))).flatten

/-- As `spec_attribute_fields`, but the title is included only when
present and nonempty, and the discussion handle only when set and
nonzero (Python truthiness). -/
def spec_attribute_fields_amended (n : Node)
    (add_statement_text add_uses add_uses_raw add_proof_text add_proof_uses
      add_proof_uses_raw : Bool) : List (Bool × List Char) :=
  (spec_attribute_fields n add_statement_text add_uses add_uses_raw add_proof_text
      add_proof_uses add_proof_uses_raw).set 0
    ((match n.title with | some t => t ≠ [] | none => false : Bool),
     match n.title with | some t => _quote t | none => []) |>.set 8
    ((match n.discussion with | some d => d ≠ 0 | none => false : Bool),
     match n.discussion with
     | some d => ("(discussion := ".toList) ++ (toString d).toList ++ (")".toList)
     | none => [])

/-- The synthesized attribute with the amended inclusion policy. -/
def spec_to_lean_attribute_amended (n : Node)
    (add_statement_text add_uses add_uses_raw add_proof_text add_proof_uses
      add_proof_uses_raw : Bool) : List Char :=
  ("blueprint".toList) ++
    ((render_spec_fields (spec_attribute_fields_amended n add_statement_text add_uses
        add_uses_raw add_proof_text add_proof_uses add_proof_uses_raw)).map
      (fun c => ('\n' :: ' ' :: ' ' :: c))).flatten

/-- The absolute start offset used by `split_declaration`. -/
def splice_start (source : List Char) (loc : DeclarationLocation) : Nat :=
  lineColOffset (splitLinesKeep source) loc.range.pos.line loc.range.pos.column

/-- The absolute end offset used by `split_declaration`. -/
def splice_end (source : List Char) (loc : DeclarationLocation) : Nat :=
  lineColOffset (splitLinesKeep source) loc.range.end_pos.line loc.range.end_pos.column

/-- A node with an empty title and a zero discussion handle (both set,
both Python-falsy). -/
def nodeTD : Node where
  name := ("a".toList)
  statement :=
    { lean_ok := true, text := [], uses := [], uses_raw := [],
      latex_env := ("theorem".toList) }
  proof := none
  not_ready := false
  discussion := some 0
  title := some []

/-- The replacement text that `modify_source` puts between the preserved
head and tail of the file (the transformed declaration with its
prepends). -/
def modify_source_middle (node : Node) (source : List Char) (location : DeclarationLocation)
    (add_uses0 : Bool) (prepend : Option (List (List Char))) : List Char :=
  let parts := split_declaration source location.range.pos location.range.end_pos
  let decl := parts.2.1
  let add_uses := add_uses0 || (node.proof.isNone && containsSub ("sorry".toList) decl)
  let add_uses_raw := add_uses || decide (0 < node.statement.uses_raw.length)
  let add_proof_uses := add_uses || (node.proof.isSome && containsSub ("sorry".toList) decl)
  let add_proof_uses_raw := add_uses ||
    (node.proof.isSome &&
      (match node.proof with | some p => decide (0 < p.uses_raw.length) | none => false))
  let attr := node.to_lean_attribute false add_uses add_uses_raw true add_proof_uses
    add_proof_uses_raw
  let decl' := insert_docstring_and_attribute decl node.statement.text attr
  match prepend with
  | some ps => (ps.map (fun p => p ++ ['\n', '\n'])).flatten ++ decl'
  | none => decl'

def resolvedInputPath (rd arg : List Char) : List Char :=
  rd ++ '/' :: (if (".tex".toList).isSuffixOf (pyStrip arg) then pyStrip arg
                else pyStrip arg ++ (".tex".toList))
def fs9 (X Y : List Char) : FSys :=
  [(("d/r.tex".toList), ("\\input{s/a}".toList)),
   (("d/s/a.tex".toList), ("\\input{b}".toList)),
   (("d/b.tex".toList), X),
   (("d/s/b.tex".toList), Y)]
def fs6 (pre mid post A : List Char) : FSys :=
  [((("d/r.tex").toList),
    pre ++ (("\\input").toList) ++ '{' :: (("a").toList) ++ '}' ::
      (mid ++ (("\\input").toList) ++ '{' :: (("a").toList) ++ '}' :: post)),
   ((("d/a.tex").toList), A)]
def fs6c : FSys := fs6 (("p ").toList) ((" m ").toList) ((" q").toList) (("A").toList)

def node7 : NodeWithPos :=
  { name := ("a").toList
    statement :=
      { lean_ok := true
        text := ("S").toList
        uses := []
        uses_raw := []
        latex_env := ("definition").toList }
    proof := none
    not_ready := false
    discussion := none
    title := none
    has_lean := true
    location := some
      { module := ("M").toList
        range :=
          { pos := { line := 1, column := 0 }
            end_pos := { line := 1, column := 3 } } }
    file := some (("M.lean").toList) }

def find_and_remove_commandFuel (cmd : List Char) : Nat → List Char → Bool × List Char
  | _, [] => (false, [])
  | 0, c :: cs => (false, c :: cs)
  | fuel + 1, c :: cs =>
    if ('\\' :: cmd).isPrefixOf (c :: cs) &&
       (match (c :: cs).drop (cmd.length + 1) with
        | [] => true
        | d :: _ => !isWordChar d) then
      (true, (find_and_remove_commandFuel cmd fuel ((c :: cs).drop (cmd.length + 1))).2)
    else
      ((find_and_remove_commandFuel cmd fuel cs).1,
        c :: (find_and_remove_commandFuel cmd fuel cs).2)

def findCmdArgsFuel (cmd : List Char) : Nat → List Char → List (List Char)
  | _, [] => []
  | 0, _ :: _ => []
  | fuel + 1, c :: cs =>
    match matchCmdArgAt cmd (c :: cs) with
    | some (arg, rest) => arg :: findCmdArgsFuel cmd fuel rest.1
    | none => findCmdArgsFuel cmd fuel cs

def removeCmdArgsFuel (cmd : List Char) : Nat → List Char → Option Nat → List Char
  | _, [], _ => []
  | 0, c :: cs, _ => c :: cs
  | fuel + 1, c :: cs, budget =>
    if budget = some 0 then c :: cs
    else
      match matchCmdArgAt cmd (c :: cs) with
      | some (_, rest) => removeCmdArgsFuel cmd fuel rest.1 (budget.map (fun k => k - 1))
      | none => c :: removeCmdArgsFuel cmd fuel cs budget

def remove_environmentsFuel : Nat → List Char → List Char
  | _, [] => []
  | 0, c :: cs => c :: cs
  | fuel + 1, c :: cs =>
    match matchBeginEnvAt (c :: cs) with
    | some rest => remove_environmentsFuel fuel rest.1
    | none => c :: remove_environmentsFuel fuel cs

def removeAllSubFuel (pat : List Char) : Nat → List Char → List Char
  | _, [] => []
  | 0, c :: cs => c :: cs
  | fuel + 1, c :: cs =>
    if pat.isEmpty then c :: cs
    else if pat.isPrefixOf (c :: cs) then
      removeAllSubFuel pat fuel ((c :: cs).drop pat.length)
    else c :: removeAllSubFuel pat fuel cs

def discussionSource : List Char := ("\\discussion{a+}").toList

def provesSource : List Char := ("\\proves{zzz}").toList

def entryName (p : NodeWithPos × List Char) : List Char := p.1.name

def resNames (r : List (NodeWithPos × List Char)) : List (List Char) := r.map entryName

def TopoOrdered (data : List (NodeWithPos × List Char))
    (r : List (NodeWithPos × List Char)) : Prop :=
  ∀ (k : Nat) (hk : k < r.length) (v : List Char),
    v ∈ (r.get ⟨k, hk⟩).1.toNode.uses → v ∈ topoNames data →
      v ∈ resNames (r.take k)

def nodeA : NodeWithPos :=
  { name := ("a").toList
    statement :=
      { lean_ok := true
        text := ("A").toList
        uses := [(("b").toList)]
        uses_raw := []
        latex_env := ("theorem").toList }
    proof := none
    not_ready := false
    discussion := none
    title := none
    has_lean := true
    location := none
    file := none }

def nodeB : NodeWithPos :=
  { name := ("b").toList
    statement :=
      { lean_ok := true
        text := ("B").toList
        uses := [(("a").toList)]
        uses_raw := []
        latex_env := ("theorem").toList }
    proof := none
    not_ready := false
    discussion := none
    title := none
    has_lean := true
    location := none
    file := none }

/-! ### Theorems -/

theorem render_spec_nil : render_spec_fields [] = [] := rfl

theorem render_spec_cons (b : Bool) (x : List Char) (rest : List (Bool × List Char)) :
    render_spec_fields ((b, x) :: rest) =
      (if b then [x] else []) ++ render_spec_fields rest := by
  unfold render_spec_fields
  cases b <;> simp

/-- Claim C8, counterexample: with the title present but empty and the
discussion handle set to `0`, `to_lean_attribute` omits both fields
(Python truthiness) although the claim includes the title whenever
present and the discussion handle whenever set; the field list of the
claim therefore differs from the synthesized one. -/
theorem to_lean_attribute_title_discussion_counterexample :
    Node.to_lean_attribute nodeTD true true true true true true ≠
        spec_to_lean_attribute nodeTD true true true true true true ∧
      Node.to_lean_attribute nodeTD true true true true true true =
        ("blueprint\n  (latexEnv := \"theorem\")".toList) := by
  constructor
  · decide
  · decide

/-- Claim C8 (amended): the synthesized attribute lists its fields in the
fixed order title, statement-text, statement-uses, statement-raw-uses,
proof-text, proof-uses, proof-raw-uses, not-ready, discussion,
environment-kind-override; the title is included whenever present and
nonempty, the not-ready flag whenever set, the discussion handle
whenever set and nonzero, and the environment-kind override exactly when
the node's kind deviates from the default ("definition" for proof-less
nodes, "theorem" otherwise). -/
theorem to_lean_attribute_eq_spec_amended (n : Node)
    (f1 f2 f3 f4 f5 f6 : Bool) :
    n.to_lean_attribute f1 f2 f3 f4 f5 f6 =
      spec_to_lean_attribute_amended n f1 f2 f3 f4 f5 f6 := by
  obtain ⟨nm, stmt, prf, nr, disc, title⟩ := n
  unfold Node.to_lean_attribute spec_to_lean_attribute_amended spec_attribute_fields_amended
    spec_attribute_fields
  refine congrArg _ (congrArg _ (congrArg _ ?_))
  cases title <;> cases prf <;> cases disc <;>
    simp only [List.set, render_spec_cons, render_spec_nil, List.append_assoc,
      List.append_nil, List.nil_append, Bool.and_false, Bool.false_and,
      if_false, decide_eq_true_eq, Option.isSome, Option.isNone, Bool.if_false_left,
      Bool.false_eq_true, if_true, Bool.true_and]

/-! Helper lemmas about the splicer's string matchers. -/

theorem pyStrip_nil : pyStrip [] = [] := rfl

theorem splitNlKeep_flatten : ∀ s : List Char, (splitNlKeep s).flatten = s := by
  intro s
  induction s with
  | nil => rfl
  | cons c cs ih =>
    unfold splitNlKeep
    by_cases h : c = '\n'
    · simp [h, ih]
    · simp only [h, if_false]
      rcases hs : splitNlKeep cs with _ | ⟨l, ls⟩
      · rw [hs] at ih
        simp at ih
        simp [ih]
      · rw [hs] at ih
        simp at ih ⊢
        exact ih

theorem stripModifiers_of_takeWhile_nil {decl : List Char}
    (h : (splitNlKeep decl).takeWhile isModifierLine = []) :
    stripModifiers decl = ([], decl) := by
  simp [stripModifiers, h, splitNlKeep_flatten]

theorem splitNlKeep_cons_nl (cs : List Char) :
    splitNlKeep ('\n' :: cs) = ['\n'] :: splitNlKeep cs := by
  simp [splitNlKeep]

theorem stripModifiers_newline (rest : List Char) :
    stripModifiers ('\n' :: rest) = ([], '\n' :: rest) := by
  apply stripModifiers_of_takeWhile_nil
  rw [splitNlKeep_cons_nl]
  simp [isModifierLine]

theorem stripDocstring_newline_at (s : List Char) :
    stripDocstring ('\n' :: '@' :: s) = none := by
  simp [stripDocstring, List.dropWhile_cons, isPyWs, List.isPrefixOf]

theorem splitFirst_bracket (a1 t : List Char) (h : ¬ ']' ∈ a1) :
    splitFirst (("]".toList)) (a1 ++ ']' :: t) = some (a1, t) := by
  induction a1 with
  | nil => simp [splitFirst, List.isPrefixOf]
  | cons c cs ih =>
    have hc : c ≠ ']' := by
      intro hc
      exact h (hc ▸ List.mem_cons_self c cs)
    have hcs : ¬ ']' ∈ cs := fun hm => h (List.mem_cons_of_mem c hm)
    unfold splitFirst
    simp only [List.cons_append]
    rw [if_neg (by simp [List.isPrefixOf, Ne.symm hc]), ih hcs]

theorem stripAttrBlock_of_inserted (a1 rest : List Char) (h : ¬ ']' ∈ a1)
    (hws : rest.dropWhile isPyWs = rest) :
    stripAttrBlock ('\n' :: '@' :: '[' :: (a1 ++ ']' :: '\n' :: rest)) =
      some (a1, rest) := by
  unfold stripAttrBlock
  have hdrop : ('\n' :: '@' :: '[' :: (a1 ++ ']' :: '\n' :: rest)).dropWhile isPyWs =
      '@' :: '[' :: (a1 ++ ']' :: '\n' :: rest) := by
    simp [List.dropWhile_cons, isPyWs]
  rw [hdrop]
  rw [if_pos (by simp [List.isPrefixOf])]
  simp only [List.drop_succ_cons, List.drop_zero]
  rw [splitFirst_bracket a1 ('\n' :: rest) h]
  simp [List.dropWhile_cons, isPyWs, hws]

/-- First application of the splicer to a plain declaration with an
empty docstring: only the attribute block is inserted. -/
theorem insert_docstring_and_attribute_plain (decl a : List Char)
    (hmod : stripModifiers decl = ([], decl))
    (hdoc : stripDocstring decl = none)
    (hattr : stripAttrBlock decl = none)
    (hta : ¬ ("to_additive".toList).isPrefixOf decl) :
    insert_docstring_and_attribute decl [] a =
      '\n' :: '@' :: '[' :: (a ++ ']' :: '\n' :: decl) := by
  unfold insert_docstring_and_attribute
  simp only [hmod, hdoc, hattr]
  simp [pyStrip_nil]
  exact fun hpre => hta (List.isPrefixOf_iff_prefix.mpr hpre)

/-- Claim C3, counterexample: applying the splicer twice with `attr1`
then `attr2` yields the single list `@[attr1, attr2]` — the newer
attribute is appended after the older one, not placed before it. -/
theorem insert_twice_new_before_old_counterexample :
    insert_docstring_and_attribute
        (insert_docstring_and_attribute ("theorem a := b".toList) [] ("attr1".toList))
        [] ("attr2".toList) =
      ("\n@[attr1, attr2]\ntheorem a := b".toList) ∧
    insert_docstring_and_attribute
        (insert_docstring_and_attribute ("theorem a := b".toList) [] ("attr1".toList))
        [] ("attr2".toList) ≠
      ("\n@[attr2, attr1]\ntheorem a := b".toList) := by
  constructor
  · decide
  · decide

theorem bracket_dropWhile_head (T : List Char) (h : ']' ∈ T) :
    T.dropWhile (fun c => c ≠ ']') =
      ']' :: (T.dropWhile (fun c => c ≠ ']')).drop 1 := by
  induction T with
  | nil => cases h
  | cons c cs ih =>
    by_cases hc : c = ']'
    · subst hc
      simp [List.dropWhile_cons]
    · have hmem : ']' ∈ cs := by
        rcases List.mem_cons.mp h with h2 | h2
        · exact absurd h2.symm hc
        · exact h2
      rw [List.dropWhile_cons, if_pos (by simp [hc])]
      exact ih hmem

theorem bracket_takeWhile_not_mem (T : List Char) :
    ¬ ']' ∈ T.takeWhile (fun c => c ≠ ']') := by
  intro h
  have := List.mem_takeWhile_imp h
  simp at this

theorem stripAttrBlock_of_inserted_general (T : List Char) (h : ']' ∈ T) :
    stripAttrBlock ('\n' :: '@' :: '[' :: T) =
      some (T.takeWhile (fun c => c ≠ ']'),
        ((T.dropWhile (fun c => c ≠ ']')).drop 1).dropWhile isPyWs) := by
  have hsplit : T = T.takeWhile (fun c => c ≠ ']') ++
      ']' :: (T.dropWhile (fun c => c ≠ ']')).drop 1 := by
    conv_lhs => rw [← List.takeWhile_append_dropWhile (fun c => decide (c ≠ ']')) T,
      bracket_dropWhile_head T h]
  unfold stripAttrBlock
  have hdrop : ('\n' :: '@' :: '[' :: T).dropWhile isPyWs = '@' :: '[' :: T := by
    simp [List.dropWhile_cons, isPyWs]
  rw [hdrop]
  rw [if_pos (by simp [List.isPrefixOf])]
  simp only [List.drop_succ_cons, List.drop_zero]
  conv_lhs => rw [hsplit]
  rw [splitFirst_bracket _ _ (bracket_takeWhile_not_mem T)]

/-- Claim C3 (amended): applying `insert_docstring_and_attribute` twice
(with empty docstrings) to a plain declaration — no leading modifier
lines, no docstring, no attribute list, not a `to_additive` declaration
(in either pass) — with two different new attributes yields a block whose
list is the prefix of the first-pass block up to its FIRST `]`, followed
by the newer attribute: when the older attribute contains no `]` this is
the single list `old, new` (old-before-new, both intact); when the older
attribute itself contains `]`, the lazy capture truncates it there and
the leftover, including the stray bracket, leaks into the declaration
body. -/
theorem insert_twice_appends_new_attribute (decl a1 a2 : List Char)
    (hmod : stripModifiers decl = ([], decl))
    (hdoc : stripDocstring decl = none)
    (hattr : stripAttrBlock decl = none)
    (hta : ¬ ("to_additive".toList).isPrefixOf decl)
    (hne : a1 ≠ a2)
    (hta2 : ¬ ("to_additive".toList).isPrefixOf
      ((((a1 ++ ']' :: '\n' :: decl).dropWhile (fun c => c ≠ ']')).drop 1).dropWhile
        isPyWs)) :
    insert_docstring_and_attribute (insert_docstring_and_attribute decl [] a1) [] a2 =
      '\n' :: '@' :: '[' ::
        ((a1 ++ ']' :: '\n' :: decl).takeWhile (fun c => c ≠ ']') ++ (", ".toList) ++ a2 ++
          ']' :: '\n' ::
          ((((a1 ++ ']' :: '\n' :: decl).dropWhile (fun c => c ≠ ']')).drop 1).dropWhile
            isPyWs)) := by
  rw [insert_docstring_and_attribute_plain decl a1 hmod hdoc hattr hta]
  unfold insert_docstring_and_attribute
  simp only [stripModifiers_newline, stripDocstring_newline_at,
    stripAttrBlock_of_inserted_general (a1 ++ ']' :: '\n' :: decl) (by simp)]
  simp [pyStrip_nil]
  intro hpre
  apply hta2
  rw [List.isPrefixOf_iff_prefix]
  simpa using hpre

/-- Witness for `insert_twice_appends_new_attribute`, at an older
attribute that itself contains `]`: the second pass truncates it at the
first `]` and the leftover leaks into the declaration body. -/
theorem insert_twice_appends_witness :
    insert_docstring_and_attribute
        (insert_docstring_and_attribute ("theorem a := b".toList) []
          ("a(uses := [b])".toList))
        [] ("attr2".toList) =
      ("\n@[a(uses := [b, attr2]\n)]\ntheorem a := b".toList) := by
  rw [insert_twice_appends_new_attribute ("theorem a := b".toList) ("a(uses := [b])".toList)
    ("attr2".toList) (by decide) (by decide) (by decide) (by decide) (by decide) (by decide)]
  decide


theorem modify_source_text_decomp (node : Node) (source : List Char)
    (loc : DeclarationLocation) (add_uses : Bool) (prepend : Option (List (List Char))) :
    modify_source_text node source loc add_uses prepend =
      source.take (splice_start source loc) ++
        modify_source_middle node source loc add_uses prepend ++
        source.drop (splice_end source loc) := rfl

/-- Claim C5: `modify_source` rewrites only the declaration span whose
absolute offsets are computed by summing full-line lengths up to the
target line plus the column; every byte of the file before the start
offset and after the end offset is preserved unchanged. -/
theorem modify_source_frame (node : Node) (source : List Char)
    (loc : DeclarationLocation) (add_uses : Bool) (prepend : Option (List (List Char)))
    (h1 : splice_start source loc ≤ splice_end source loc)
    (h2 : splice_end source loc ≤ source.length) :
    (modify_source_text node source loc add_uses prepend).take (splice_start source loc) =
        source.take (splice_start source loc) ∧
      (modify_source_text node source loc add_uses prepend).drop
          ((modify_source_text node source loc add_uses prepend).length -
            (source.length - splice_end source loc)) =
        source.drop (splice_end source loc) := by
  rw [modify_source_text_decomp]
  have hlenA : (source.take (splice_start source loc)).length = splice_start source loc := by
    rw [List.length_take]
    omega
  constructor
  · rw [List.append_assoc]
    exact List.take_left' hlenA
  · have hk : (source.take (splice_start source loc) ++
          modify_source_middle node source loc add_uses prepend ++
          source.drop (splice_end source loc)).length -
          (source.length - splice_end source loc) =
        (source.take (splice_start source loc) ++
          modify_source_middle node source loc add_uses prepend).length := by
      simp only [List.length_append, List.length_take, List.length_drop]
      omega
    rw [hk, List.drop_left]

/-- Witness for `modify_source_frame`. -/
theorem modify_source_frame_witness :
    splice_start ("-- head\ntheorem a := b\n-- tail\n".toList)
        ⟨("M".toList), ⟨⟨2, 0⟩, ⟨2, 14⟩⟩⟩ ≤
      splice_end ("-- head\ntheorem a := b\n-- tail\n".toList)
        ⟨("M".toList), ⟨⟨2, 0⟩, ⟨2, 14⟩⟩⟩ ∧
    ((modify_source_text nodeTD ("-- head\ntheorem a := b\n-- tail\n".toList)
          ⟨("M".toList), ⟨⟨2, 0⟩, ⟨2, 14⟩⟩⟩ false none).take
        (splice_start ("-- head\ntheorem a := b\n-- tail\n".toList)
          ⟨("M".toList), ⟨⟨2, 0⟩, ⟨2, 14⟩⟩⟩) =
      ("-- head\ntheorem a := b\n-- tail\n".toList).take
        (splice_start ("-- head\ntheorem a := b\n-- tail\n".toList)
          ⟨("M".toList), ⟨⟨2, 0⟩, ⟨2, 14⟩⟩⟩)) :=
  ⟨by decide,
   (modify_source_frame nodeTD ("-- head\ntheorem a := b\n-- tail\n".toList)
      ⟨("M".toList), ⟨⟨2, 0⟩, ⟨2, 14⟩⟩⟩ false none (by decide) (by decide)).1⟩

theorem matchInputAt_no_bs (c : Char) (cs : List Char) (h : c ≠ '\\') :
    matchInputAt (c :: cs) = none := by
  unfold matchInputAt
  rw [dif_neg]
  simp [List.isPrefixOf, Ne.symm h]

theorem findInputDirective_no_bs (s : List Char) (h : ∀ c ∈ s, c ≠ '\\') :
    findInputDirective s = none := by
  induction s with
  | nil => rfl
  | cons c cs ih =>
    unfold findInputDirective
    rw [matchInputAt_no_bs c cs (h c (List.mem_cons_self c cs))]
    rw [ih (fun x hx => h x (List.mem_cons_of_mem c hx))]

theorem resolveInputs_no_bs (fs : FSys) (rd : List Char) (s : List Char) (st : RSt)
    (h : ∀ c ∈ s, c ≠ '\\') :
    (resolveInputs fs rd s st).1 = (s, st) := by
  unfold resolveInputs
  rw [findInputDirective_no_bs s h]

theorem takeWhile_brace (arg rest : List Char) (h : '}' ∉ arg) :
    (arg ++ '}' :: rest).takeWhile (fun c => c ≠ '}') = arg := by
  induction arg with
  | nil => simp [List.takeWhile_cons]
  | cons c cs ih =>
    have hc : c ≠ '}' := fun hc => h (hc ▸ List.mem_cons_self c cs)
    have ih' := ih (fun hm => h (List.mem_cons_of_mem c hm))
    simp only [List.cons_append, List.takeWhile_cons]
    simp only [decide_not] at ih' ⊢
    simp [hc, ih']

theorem dropWhile_brace (arg rest : List Char) (h : '}' ∉ arg) :
    (arg ++ '}' :: rest).dropWhile (fun c => c ≠ '}') = '}' :: rest := by
  induction arg with
  | nil => simp [List.dropWhile_cons]
  | cons c cs ih =>
    have hc : c ≠ '}' := fun hc => h (hc ▸ List.mem_cons_self c cs)
    have ih' := ih (fun hm => h (List.mem_cons_of_mem c hm))
    simp only [List.cons_append, List.dropWhile_cons]
    simp only [decide_not] at ih' ⊢
    simp [hc, ih']

theorem matchInputAt_exact (arg rest : List Char) (h : '}' ∉ arg) :
    ∃ hb, matchInputAt (("\\input".toList) ++ '{' :: arg ++ '}' :: rest) =
      some (arg, ⟨rest, hb⟩) := by
  refine ⟨?_, ?_⟩
  · simp
    omega
  · unfold matchInputAt
    rw [dif_pos (by simp [List.isPrefixOf])]
    have h6 : (("\\input".toList) ++ '{' :: arg ++ '}' :: rest).drop 6 =
        '{' :: (arg ++ '}' :: rest) := by
      rw [show (6 : Nat) = ("\\input".toList).length from by decide]
      exact List.drop_left _ _
    have hws : List.dropWhile isPyWs ('{' :: (arg ++ '}' :: rest)) =
        '{' :: (arg ++ '}' :: rest) := by
      simp [List.dropWhile_cons, isPyWs]
    have hscrut : List.dropWhile isPyWs
        (List.drop 6 (("\\input".toList) ++ '{' :: arg ++ '}' :: rest)) =
        '{' :: (arg ++ '}' :: rest) := by rw [h6, hws]
    split
    · next r3 h2 =>
      rw [hscrut] at h2
      obtain ⟨rfl⟩ : r3 = arg ++ '}' :: rest := by
        injection h2 with h2a h2b
        exact h2b.symm
      split
      · next r4 h4 =>
        rw [dropWhile_brace _ _ h] at h4
        obtain ⟨rfl⟩ : r4 = rest := by
          injection h4 with h4a h4b
          exact h4b.symm
        rw [takeWhile_brace _ _ h]
      · next x h4 =>
        exfalso
        rw [dropWhile_brace _ _ h] at h4
        exact absurd h4 (by simp)
    · next h2 =>
      exfalso
      rw [hscrut] at h2
      exact absurd h2 (by simp)

theorem input_lit : ("\\input".toList) = ['\\', 'i', 'n', 'p', 'u', 't'] := rfl

theorem findInputDirective_split (pre arg rest : List Char)
    (hpre : ∀ c ∈ pre, c ≠ '\\') (harg : '}' ∉ arg) :
    ∃ hb, findInputDirective (pre ++ ("\\input".toList) ++ '{' :: arg ++ '}' :: rest) =
      some (pre, arg, ⟨rest, hb⟩) := by
  induction pre with
  | nil =>
    obtain ⟨hb, hm⟩ := matchInputAt_exact arg rest harg
    refine ⟨by simpa using hb, ?_⟩
    simp only [List.nil_append]
    show findInputDirective ('\\' :: (("input".toList) ++ '{' :: arg ++ '}' :: rest)) = _
    unfold findInputDirective
    rw [show matchInputAt ('\\' :: (("input".toList) ++ '{' :: arg ++ '}' :: rest)) =
      some (arg, ⟨rest, hb⟩) from hm]
  | cons c cs ih =>
    have hc : c ≠ '\\' := hpre c (List.mem_cons_self c cs)
    obtain ⟨hb, hf⟩ := ih (fun x hx => hpre x (List.mem_cons_of_mem c hx))
    refine ⟨?_, ?_⟩
    · simp only [List.cons_append, List.length_cons]
      simp at hb ⊢
      omega
    · simp only [List.cons_append]
      unfold findInputDirective
      rw [matchInputAt_no_bs c _ hc, hf]

theorem resolveInputs_step_expand (fs : FSys) (rd pre arg rest : List Char) (st : RSt)
    (hpre : ∀ c ∈ pre, c ≠ '\\') (harg : '}' ∉ arg)
    (hex : fsExists fs (resolvedInputPath rd arg) = true)
    (hseen : resolvedInputPath rd arg ∉ st.seen) :
    (resolveInputs fs rd (pre ++ ("\\input".toList) ++ '{' :: arg ++ '}' :: rest) st).1 =
      (pre ++
        (resolveInputs fs rd
          (match fsRead fs (resolvedInputPath rd arg) with | some c => c | none => [])
          ⟨insert (resolvedInputPath rd arg) st.seen, st.warns⟩).1.1 ++
        (resolveInputs fs rd rest
          (resolveInputs fs rd
            (match fsRead fs (resolvedInputPath rd arg) with | some c => c | none => [])
            ⟨insert (resolvedInputPath rd arg) st.seen, st.warns⟩).1.2).1.1,
       (resolveInputs fs rd rest
          (resolveInputs fs rd
            (match fsRead fs (resolvedInputPath rd arg) with | some c => c | none => [])
            ⟨insert (resolvedInputPath rd arg) st.seen, st.warns⟩).1.2).1.2) := by
  obtain ⟨hb, hf⟩ := findInputDirective_split pre arg rest hpre harg
  simp only [resolvedInputPath] at hex hseen ⊢
  conv_lhs => rw [resolveInputs.eq_def]
  rw [hf]
  simp only [dif_pos hex, dif_neg hseen]

theorem resolveInputs_step_circular (fs : FSys) (rd pre arg rest : List Char) (st : RSt)
    (hpre : ∀ c ∈ pre, c ≠ '\\') (harg : '}' ∉ arg)
    (hex : fsExists fs (resolvedInputPath rd arg) = true)
    (hseen : resolvedInputPath rd arg ∈ st.seen) :
    (resolveInputs fs rd (pre ++ ("\\input".toList) ++ '{' :: arg ++ '}' :: rest) st).1 =
      (pre ++
        (resolveInputs fs rd rest
          ⟨st.seen, st.warns ++ [circularInputMsg (resolvedInputPath rd arg)]⟩).1.1,
       (resolveInputs fs rd rest
          ⟨st.seen, st.warns ++ [circularInputMsg (resolvedInputPath rd arg)]⟩).1.2) := by
  obtain ⟨hb, hf⟩ := findInputDirective_split pre arg rest hpre harg
  simp only [resolvedInputPath] at hex hseen ⊢
  conv_lhs => rw [resolveInputs.eq_def]
  rw [hf]
  simp only [dif_pos hex, dif_pos hseen]

/-- C9: every path named by an input directive, including one inside a nested included file, is resolved relative to the directory of the root document, not the including file: here d/s/a.tex contains input of b, and the resolver picks d/b.tex (content X), not d/s/b.tex (content Y). -/
theorem read_latex_input_root_relative (X Y : List Char)
    (hX : ∀ c ∈ X, c ≠ '\\') (hY : ∀ c ∈ Y, c ≠ '\\') :
    read_latex_file (fs9 X Y) ("d/r.tex".toList) = (X, []) := by
  unfold read_latex_file
  rw [show fsRead (fs9 X Y) ("d/r.tex".toList) = some ("\\input{s/a}".toList) from rfl]
  simp only
  rw [show ("\\input{s/a}".toList) =
    [] ++ ("\\input".toList) ++ '{' :: ("s/a".toList) ++ '}' :: [] from rfl]
  rw [show parentDir ("d/r.tex".toList) = ("d".toList) from by decide]
  rw [resolveInputs_step_expand (fs9 X Y) ("d".toList) [] ("s/a".toList) []
    ⟨{("d/r.tex".toList)}, []⟩ (by simp) (by decide) rfl (by decide)]
  rw [show fsRead (fs9 X Y) (resolvedInputPath ("d".toList) ("s/a".toList)) =
    some ("\\input{b}".toList) from rfl]
  simp only
  rw [show ("\\input{b}".toList) =
    [] ++ ("\\input".toList) ++ '{' :: ("b".toList) ++ '}' :: [] from rfl]
  rw [resolveInputs_step_expand (fs9 X Y) ("d".toList) [] ("b".toList) []
    ⟨insert (resolvedInputPath ("d".toList) ("s/a".toList)) {("d/r.tex".toList)}, []⟩
    (by simp) (by decide) rfl (by decide)]
  rw [show fsRead (fs9 X Y) (resolvedInputPath ("d".toList) ("b".toList)) = some X from rfl]
  simp only
  rw [resolveInputs_no_bs _ _ X _ hX]
  rw [resolveInputs_no_bs _ _ [] _ (by simp)]
  rw [resolveInputs_no_bs _ _ [] _ (by simp)]
  simp

theorem read_latex_fs6_eq (pre mid post A : List Char)
    (hpre : ∀ c ∈ pre, c ≠ '\\') (hmid : ∀ c ∈ mid, c ≠ '\\')
    (hpost : ∀ c ∈ post, c ≠ '\\') (hA : ∀ c ∈ A, c ≠ '\\') :
    read_latex_file (fs6 pre mid post A) (("d/r.tex").toList) =
      (pre ++ A ++ (mid ++ post), [circularInputMsg (("d/a.tex").toList)]) := by
  unfold read_latex_file
  rw [show fsRead (fs6 pre mid post A) (("d/r.tex").toList) =
    some (pre ++ (("\\input").toList) ++ '{' :: (("a").toList) ++ '}' ::
      (mid ++ (("\\input").toList) ++ '{' :: (("a").toList) ++ '}' :: post)) from rfl]
  simp only
  rw [show parentDir (("d/r.tex").toList) = (("d").toList) from by decide]
  rw [resolveInputs_step_expand (fs6 pre mid post A) (("d").toList) pre (("a").toList)
    (mid ++ (("\\input").toList) ++ '{' :: (("a").toList) ++ '}' :: post)
    ⟨{(("d/r.tex").toList)}, []⟩ hpre (by decide) rfl (by decide)]
  rw [show fsRead (fs6 pre mid post A) (resolvedInputPath (("d").toList) (("a").toList)) =
    some A from rfl]
  simp only
  rw [resolveInputs_no_bs _ _ A _ hA]
  rw [resolveInputs_step_circular (fs6 pre mid post A) (("d").toList) mid (("a").toList)
    post _ hmid (by decide) rfl (by simp)]
  rw [resolveInputs_no_bs _ _ post _ hpost]
  simp
  rfl

/-- C6 counterexample: a file included at two separate non-cyclic occurrences is NOT inlined in full at each occurrence; the global seen set makes the second occurrence yield empty text plus a circular-input warning. -/
theorem read_latex_second_include_counterexample :
    read_latex_file fs6c (("d/r.tex").toList) =
      ((("p A m  q").toList), [circularInputMsg (("d/a.tex").toList)]) ∧
    ¬ (read_latex_file fs6c (("d/r.tex").toList) =
      ((("p A m A q").toList), ([] : List (List Char)))) := by
  have h := read_latex_fs6_eq (("p ").toList) ((" m ").toList) ((" q").toList)
    (("A").toList) (by decide) (by decide) (by decide) (by decide)
  rw [show fs6c = fs6 (("p ").toList) ((" m ").toList) ((" q").toList) (("A").toList)
    from rfl]
  rw [h]
  constructor
  · decide
  · decide

/-- C6 (amended): the resolver inlines the referenced file in full at its first occurrence; any later occurrence of the same file, cyclic or not, yields empty text and a circular-input warning, because the seen set is global rather than restricted to the ancestor chain. -/
theorem read_latex_include_global_seen (pre mid post A : List Char)
    (hpre : ∀ c ∈ pre, c ≠ '\\') (hmid : ∀ c ∈ mid, c ≠ '\\')
    (hpost : ∀ c ∈ post, c ≠ '\\') (hA : ∀ c ∈ A, c ≠ '\\') :
    read_latex_file (fs6 pre mid post A) (("d/r.tex").toList) =
      (pre ++ A ++ (mid ++ post), [circularInputMsg (("d/a.tex").toList)]) :=
  read_latex_fs6_eq pre mid post A hpre hmid hpost hA

theorem read_latex_include_global_seen_witness :
    read_latex_file (fs6 [] [] [] (("A").toList)) (("d/r.tex").toList) =
      ((("A").toList), [circularInputMsg (("d/a.tex").toList)]) := by
  have h := read_latex_include_global_seen [] [] [] (("A").toList)
    (by decide) (by decide) (by decide) (by decide)
  simpa using h

theorem read_latex_input_root_relative_witness :
    read_latex_file (fs9 (("X").toList) (("Y").toList)) (("d/r.tex").toList) =
      ((("X").toList), []) :=
  read_latex_input_root_relative (("X").toList) (("Y").toList) (by decide) (by decide)

theorem find_map_write (fs : FSys) (p c : List Char) :
    (List.find? (fun e => e.1 = p) (fs.map (fun e => if e.1 = p then (p, c) else e))) =
      ((List.find? (fun e => e.1 = p) fs).map (fun _ => (p, c))) := by
  induction fs with
  | nil => rfl
  | cons e es ih =>
    by_cases he : e.1 = p
    · simp [List.find?_cons, he]
    · simp [List.find?_cons, he, ih]

theorem fsRead_fsWrite_self (fs : FSys) (p c : List Char) :
    fsRead (fsWrite fs p c) p = some c := by
  unfold fsRead fsWrite
  split
  next h =>
    rw [find_map_write]
    match hf : List.find? (fun e => e.1 = p) fs with
    | none => rw [hf] at h; simp at h
    | some e => exact congrArg _ (congrArg _ hf)
  next h =>
    rw [List.find?_append]
    rw [Option.not_isSome_iff_eq_none] at h
    rw [h]
    simp

theorem find_map_write_other (fs : FSys) (q p c : List Char) (h : q ≠ p) :
    (List.find? (fun e => e.1 = p) (fs.map (fun e => if e.1 = q then (q, c) else e))) =
      (List.find? (fun e => e.1 = p) fs) := by
  induction fs with
  | nil => rfl
  | cons e es ih =>
    by_cases he : e.1 = q
    · simp [List.find?_cons, he, h, Ne.symm h, ih]
    · by_cases hp : e.1 = p
      · simp [List.find?_cons, he, hp, Ne.symm h]
      · simp [List.find?_cons, he, hp, ih]

theorem fsRead_fsWrite_other (fs : FSys) (q p c : List Char) (h : q ≠ p) :
    fsRead (fsWrite fs q c) p = fsRead fs p := by
  unfold fsRead fsWrite
  split
  · rw [find_map_write_other fs q p c h]
  · rw [List.find?_append]
    have h2 : (List.find? (fun e => e.1 = p) [(q, c)]) = none := by simp [h]
    rw [h2, Option.or_none]

theorem import_phase_not_mem (files : List (List Char)) (fs : FSys) (p : List Char)
    (h : p ∉ files) :
    fsRead (import_phase fs files) p = fsRead fs p := by
  induction files generalizing fs with
  | nil => rfl
  | cons f rest ih =>
    have hf : f ≠ p := fun hf => h (hf ▸ List.mem_cons_self f rest)
    have hr : p ∉ rest := fun hm => h (List.mem_cons_of_mem f hm)
    show fsRead (import_phase (fsWrite fs f _) rest) p = _
    rw [ih _ hr, fsRead_fsWrite_other fs f p _ hf]

theorem import_phase_mem (files : List (List Char)) (fs : FSys) (p : List Char)
    (hmem : p ∈ files) (hnd : files.Nodup) :
    fsRead (import_phase fs files) p =
      some (add_blueprint_gen_import
        (match fsRead fs p with | some s => s | none => [])) := by
  induction files generalizing fs with
  | nil => exact absurd hmem (List.not_mem_nil p)
  | cons f rest ih =>
    rcases List.mem_cons.mp hmem with hpf | hpr
    · subst hpf
      have hr : p ∉ rest := (List.nodup_cons.mp hnd).1
      show fsRead (import_phase (fsWrite fs p _) rest) p = _
      rw [import_phase_not_mem rest _ p hr, fsRead_fsWrite_self]
    · have hf : f ≠ p := fun hf => ((List.nodup_cons.mp hnd).1) (hf ▸ hpr)
      show fsRead (import_phase (fsWrite fs f _) rest) p = _
      rw [ih _ hpr (List.nodup_cons.mp hnd).2]
      rw [fsRead_fsWrite_other fs f p _ hf]

theorem splice_foldl_nodup (locs : List NodeWithPos) (modules : List (List Char))
    (prepends : List (List Char × List (List Char))) (add_uses : Bool)
    (acc : FSys × List (List Char)) (h : acc.2.Nodup) :
    (locs.foldl
      (fun acc node =>
        if is_upstream_or_informal modules node then acc
        else
          match node.file, node.location with
          | some f, some loc =>
            let source := match fsRead acc.1 f with | some s => s | none => []
            let newSource :=
              modify_source_text node.toNode source loc add_uses
                (some (assocGet prepends node.name))
            (fsWrite acc.1 f newSource, if acc.2.contains f then acc.2 else acc.2 ++ [f])
          | _, _ => acc)
      acc).2.Nodup := by
  induction locs generalizing acc with
  | nil => exact h
  | cons n rest ih =>
    rw [List.foldl_cons]
    apply ih
    by_cases hi : is_upstream_or_informal modules n
    · simpa [hi] using h
    · rcases hf : n.file with _ | f <;> rcases hl : n.location with _ | l <;>
        simp only [hi, hf, hl, if_false, Bool.false_eq_true]
      · exact h
      · exact h
      · exact h
      · have hcb : (acc.2.contains f = true) ↔ f ∈ acc.2 := by simp
        by_cases hc : f ∈ acc.2
        · rw [if_pos (hcb.mpr hc)]
          exact h
        · rw [if_neg (fun hb => hc (hcb.mp hb))]
          refine List.Nodup.append h (List.nodup_singleton f) ?_
          intro a ha hb
          rw [List.mem_singleton] at hb
          subst hb
          exact hc ha

theorem splice_phase_nodup (fs : FSys) (locs : List NodeWithPos)
    (modules : List (List Char)) (prepends : List (List Char × List (List Char)))
    (add_uses : Bool) :
    (splice_phase fs locs modules prepends add_uses).2.Nodup :=
  splice_foldl_nodup locs modules prepends add_uses (fs, []) List.nodup_nil

/-- C7 (amended): for every file in the modified-files list produced by the splice loop, the import loop rewrites that file exactly once, to `add_blueprint_gen_import` of its post-splice contents (so the generated import line appears exactly once per modified file, inserted at the position of the first existing import line, i.e. before any existing leading import block). -/
theorem import_once_per_modified_file (fs : FSys) (locs : List NodeWithPos)
    (modules : List (List Char)) (prepends : List (List Char × List (List Char)))
    (add_uses : Bool) (p : List Char)
    (hp : p ∈ (splice_phase fs locs modules prepends add_uses).2) :
    fsRead (import_phase (splice_phase fs locs modules prepends add_uses).1
        (splice_phase fs locs modules prepends add_uses).2) p =
      some (add_blueprint_gen_import
        (match fsRead (splice_phase fs locs modules prepends add_uses).1 p with
         | some s => s
         | none => [])) :=
  import_phase_mem _ _ p hp (splice_phase_nodup fs locs modules prepends add_uses)

/-- C7 counterexample: the generated import line is inserted BEFORE an existing leading import block, not after it: the result of processing a file that starts with an import line does not begin with that original import line. -/
theorem add_blueprint_gen_import_before_counterexample :
    add_blueprint_gen_import (("import A\nx\n").toList) =
      (("import Architect\nimport A\nx\n").toList) ∧
    ¬ ∃ rest, add_blueprint_gen_import (("import A\nx\n").toList) =
        (("import A\n").toList) ++ rest := by
  refine ⟨by decide, ?_⟩
  rintro ⟨rest, hr⟩
  have h1 : (add_blueprint_gen_import (("import A\nx\n").toList)).take 9 =
      (("import A\n").toList) := by
    rw [hr]
    exact List.take_left' (by decide)
  rw [show (add_blueprint_gen_import (("import A\nx\n").toList)).take 9 =
      (("import Ar").toList) from by decide] at h1
  exact absurd h1 (by decide)

theorem import_once_per_modified_file_witness :
    (("M.lean").toList) ∈
      (splice_phase [((("M.lean").toList), (("e:=b").toList))] [node7]
        [(("M").toList)] [] false).2 ∧
    fsRead (import_phase
        (splice_phase [((("M.lean").toList), (("e:=b").toList))] [node7]
          [(("M").toList)] [] false).1
        (splice_phase [((("M.lean").toList), (("e:=b").toList))] [node7]
          [(("M").toList)] [] false).2) (("M.lean").toList) =
      some (add_blueprint_gen_import
        (match fsRead (splice_phase [((("M.lean").toList), (("e:=b").toList))] [node7]
            [(("M").toList)] [] false).1 (("M.lean").toList) with
         | some s => s
         | none => [])) :=
  ⟨by decide, import_once_per_modified_file _ _ _ _ _ _ (by decide)⟩

theorem find_and_remove_command_nil (cmd : List Char) :
    find_and_remove_command cmd [] = (false, []) := by
  rw [find_and_remove_command.eq_def]

theorem find_and_remove_command_cons (cmd : List Char) (c : Char) (cs : List Char) :
    find_and_remove_command cmd (c :: cs) =
      (if ('\\' :: cmd).isPrefixOf (c :: cs) &&
          (match (c :: cs).drop (cmd.length + 1) with
           | [] => true
           | d :: _ => !isWordChar d) then
        (true, (find_and_remove_command cmd ((c :: cs).drop (cmd.length + 1))).2)
      else
        ((find_and_remove_command cmd cs).1, c :: (find_and_remove_command cmd cs).2)) := by
  rw [find_and_remove_command.eq_def]

theorem findCmdArgs_nil (cmd : List Char) : findCmdArgs cmd [] = [] := by
  rw [findCmdArgs.eq_def]

theorem findCmdArgs_cons (cmd : List Char) (c : Char) (cs : List Char) :
    findCmdArgs cmd (c :: cs) =
      (match matchCmdArgAt cmd (c :: cs) with
       | some (arg, rest) => arg :: findCmdArgs cmd rest.1
       | none => findCmdArgs cmd cs) := by
  rw [findCmdArgs.eq_def]

theorem removeCmdArgs_nil (cmd : List Char) (budget : Option Nat) :
    removeCmdArgs cmd [] budget = [] := by
  rw [removeCmdArgs.eq_def]

theorem removeCmdArgs_cons (cmd : List Char) (c : Char) (cs : List Char) (budget : Option Nat) :
    removeCmdArgs cmd (c :: cs) budget =
      (if budget = some 0 then c :: cs
       else
         match matchCmdArgAt cmd (c :: cs) with
         | some (_, rest) => removeCmdArgs cmd rest.1 (budget.map (fun k => k - 1))
         | none => c :: removeCmdArgs cmd cs budget) := by
  rw [removeCmdArgs.eq_def]

theorem remove_environments_nil : remove_environments [] = [] := by
  rw [remove_environments.eq_def]

theorem remove_environments_cons (c : Char) (cs : List Char) :
    remove_environments (c :: cs) =
      (match matchBeginEnvAt (c :: cs) with
       | some rest => remove_environments rest.1
       | none => c :: remove_environments cs) := by
  rw [remove_environments.eq_def]

theorem removeAllSub_nil (pat : List Char) : removeAllSub pat [] = [] := by
  rw [removeAllSub.eq_def]

theorem removeAllSub_cons (pat : List Char) (c : Char) (cs : List Char) :
    removeAllSub pat (c :: cs) =
      (if pat.isEmpty then c :: cs
       else if pat.isPrefixOf (c :: cs) then
         removeAllSub pat ((c :: cs).drop pat.length)
       else c :: removeAllSub pat cs) := by
  rw [removeAllSub.eq_def]
  rfl

theorem find_and_remove_commandFuel_eq (cmd : List Char) (fuel : Nat) :
    ∀ s : List Char, s.length ≤ fuel →
      find_and_remove_commandFuel cmd fuel s = find_and_remove_command cmd s := by
  induction fuel with
  | zero =>
    intro s hs
    have h0 : s = [] := List.eq_nil_of_length_eq_zero (Nat.le_zero.mp hs)
    subst h0
    rw [find_and_remove_command_nil]
    rfl
  | succ fuel ih =>
    intro s hs
    match s with
    | [] =>
      rw [find_and_remove_command_nil]
      rfl
    | c :: cs =>
      rw [find_and_remove_command_cons]
      simp only [List.length_cons] at hs
      show (if _ then _ else _) = (if _ then _ else _)
      split
      · rw [ih _ (by simp only [List.length_drop, List.length_cons]; omega)]
      · rw [ih cs (by omega)]

theorem findCmdArgsFuel_eq (cmd : List Char) (fuel : Nat) :
    ∀ s : List Char, s.length ≤ fuel →
      findCmdArgsFuel cmd fuel s = findCmdArgs cmd s := by
  induction fuel with
  | zero =>
    intro s hs
    have h0 : s = [] := List.eq_nil_of_length_eq_zero (Nat.le_zero.mp hs)
    subst h0
    rw [findCmdArgs_nil]
    rfl
  | succ fuel ih =>
    intro s hs
    match s with
    | [] =>
      rw [findCmdArgs_nil]
      rfl
    | c :: cs =>
      rw [findCmdArgs_cons]
      simp only [List.length_cons] at hs
      show (match matchCmdArgAt cmd (c :: cs) with
        | some (arg, rest) => arg :: findCmdArgsFuel cmd fuel rest.1
        | none => findCmdArgsFuel cmd fuel cs) = _
      cases hm : matchCmdArgAt cmd (c :: cs) with
      | none =>
        show findCmdArgsFuel cmd fuel cs = findCmdArgs cmd cs
        exact ih cs (by omega)
      | some p =>
        obtain ⟨arg, rest⟩ := p
        have hr : rest.1.length ≤ fuel := by
          have h2 := rest.2
          simp only [List.length_cons] at h2
          omega
        show arg :: findCmdArgsFuel cmd fuel rest.1 = arg :: findCmdArgs cmd rest.1
        rw [ih _ hr]

theorem removeCmdArgsFuel_eq (cmd : List Char) (fuel : Nat) :
    ∀ (s : List Char) (budget : Option Nat), s.length ≤ fuel →
      removeCmdArgsFuel cmd fuel s budget = removeCmdArgs cmd s budget := by
  induction fuel with
  | zero =>
    intro s budget hs
    have h0 : s = [] := List.eq_nil_of_length_eq_zero (Nat.le_zero.mp hs)
    subst h0
    rw [removeCmdArgs_nil]
    rfl
  | succ fuel ih =>
    intro s budget hs
    match s with
    | [] =>
      rw [removeCmdArgs_nil]
      rfl
    | c :: cs =>
      rw [removeCmdArgs_cons]
      simp only [List.length_cons] at hs
      show (if budget = some 0 then c :: cs
        else match matchCmdArgAt cmd (c :: cs) with
          | some (_, rest) => removeCmdArgsFuel cmd fuel rest.1 (budget.map (fun k => k - 1))
          | none => c :: removeCmdArgsFuel cmd fuel cs budget) = _
      split
      · rfl
      · cases hm : matchCmdArgAt cmd (c :: cs) with
        | none =>
          show c :: removeCmdArgsFuel cmd fuel cs budget = c :: removeCmdArgs cmd cs budget
          rw [ih cs _ (by omega)]
        | some p =>
          obtain ⟨arg, rest⟩ := p
          have hr : rest.1.length ≤ fuel := by
            have h2 := rest.2
            simp only [List.length_cons] at h2
            omega
          show removeCmdArgsFuel cmd fuel rest.1 (budget.map (fun k => k - 1)) =
            removeCmdArgs cmd rest.1 (budget.map (fun k => k - 1))
          rw [ih _ _ hr]

theorem remove_environmentsFuel_eq (fuel : Nat) :
    ∀ s : List Char, s.length ≤ fuel →
      remove_environmentsFuel fuel s = remove_environments s := by
  induction fuel with
  | zero =>
    intro s hs
    have h0 : s = [] := List.eq_nil_of_length_eq_zero (Nat.le_zero.mp hs)
    subst h0
    rw [remove_environments_nil]
    rfl
  | succ fuel ih =>
    intro s hs
    match s with
    | [] =>
      rw [remove_environments_nil]
      rfl
    | c :: cs =>
      rw [remove_environments_cons]
      simp only [List.length_cons] at hs
      show (match matchBeginEnvAt (c :: cs) with
        | some rest => remove_environmentsFuel fuel rest.1
        | none => c :: remove_environmentsFuel fuel cs) = _
      cases hm : matchBeginEnvAt (c :: cs) with
      | none =>
        show c :: remove_environmentsFuel fuel cs = c :: remove_environments cs
        rw [ih cs (by omega)]
      | some rest =>
        have hr : rest.1.length ≤ fuel := by
          have h2 := rest.2
          simp only [List.length_cons] at h2
          omega
        show remove_environmentsFuel fuel rest.1 = remove_environments rest.1
        exact ih _ hr

theorem removeAllSubFuel_eq (pat : List Char) (fuel : Nat) :
    ∀ s : List Char, s.length ≤ fuel →
      removeAllSubFuel pat fuel s = removeAllSub pat s := by
  induction fuel with
  | zero =>
    intro s hs
    have h0 : s = [] := List.eq_nil_of_length_eq_zero (Nat.le_zero.mp hs)
    subst h0
    rw [removeAllSub_nil]
    rfl
  | succ fuel ih =>
    intro s hs
    match s with
    | [] =>
      rw [removeAllSub_nil]
      rfl
    | c :: cs =>
      rw [removeAllSub_cons]
      simp only [List.length_cons] at hs
      show (if pat.isEmpty then c :: cs
        else if pat.isPrefixOf (c :: cs) then
          removeAllSubFuel pat fuel ((c :: cs).drop pat.length)
        else c :: removeAllSubFuel pat fuel cs) = _
      split
      · rfl
      · next he =>
        have hne : pat.length ≠ 0 := by
          intro h0
          rw [List.length_eq_zero] at h0
          subst h0
          simp [List.isEmpty] at he
        split
        · rw [ih _ (by simp only [List.length_drop, List.length_cons]; omega)]
        · rw [ih cs (by omega)]

/-- C10: when the discussion directive has an argument that is not a valid integer literal (and occurs only once, so extraction itself warns nothing), the parsed record has no discussion handle and the warnings are exactly those of the preceding steps: the failed integer parse is silent. -/
theorem try_int_invalid_discussion_silent (source d : List Char)
    (hd : (find_and_remove_command_argument (("discussion").toList)
            (parse_steps_before_discussion source).residual).1 = some d)
    (hw : (find_and_remove_command_argument (("discussion").toList)
            (parse_steps_before_discussion source).residual).2.2 = [])
    (hint : pyParseInt d = none) :
    (parse_and_remove_blueprint_commands source).1.discussion = none ∧
    (parse_and_remove_blueprint_commands source).2.2 =
      (parse_steps_before_discussion source).warns := by
  constructor
  · show try_int (find_and_remove_command_argument (("discussion").toList)
      (parse_steps_before_discussion source).residual).1 = none
    rw [hd]
    exact hint
  · show (parse_steps_before_discussion source).warns ++
      (find_and_remove_command_argument (("discussion").toList)
        (parse_steps_before_discussion source).residual).2.2 = _
    rw [hw, List.append_nil]

theorem remove_environments_ds : remove_environments discussionSource = discussionSource := by
  rw [← remove_environmentsFuel_eq 16 discussionSource (by decide)]
  decide

theorem farca_label_ds :
    find_and_remove_command_argument (("label").toList) discussionSource =
      (none, discussionSource, []) := by
  have h1 : findCmdArgs (("label").toList) discussionSource = [] := by
    rw [← findCmdArgsFuel_eq _ 16 discussionSource (by decide)]
    decide
  have h2 : removeCmdArgs (("label").toList) discussionSource (some 1) = discussionSource := by
    rw [← removeCmdArgsFuel_eq _ 16 discussionSource _ (by decide)]
    decide
  unfold find_and_remove_command_argument find_and_remove_command_arguments
  rw [h1]
  rw [if_neg (by decide)]
  rw [h2]
  rfl

theorem removeAllSub_ds :
    removeAllSub (("\\label").toList ++ '{' :: labelText none ++ [('}' : Char)])
      discussionSource = discussionSource := by
  rw [← removeAllSubFuel_eq _ 16 discussionSource (by decide)]
  decide

theorem farcas_uses_ds :
    find_and_remove_command_arguments (("uses").toList) discussionSource 0 =
      ([], discussionSource) := by
  have h1 : findCmdArgs (("uses").toList) discussionSource = [] := by
    rw [← findCmdArgsFuel_eq _ 16 discussionSource (by decide)]
    decide
  have h2 : removeCmdArgs (("uses").toList) discussionSource none = discussionSource := by
    rw [← removeCmdArgsFuel_eq _ 16 discussionSource _ (by decide)]
    decide
  unfold find_and_remove_command_arguments
  rw [h1]
  simp only [if_pos rfl, if_true]
  rw [h2]
  rfl

theorem farcas_alsoIn_ds :
    find_and_remove_command_arguments (("alsoIn").toList) discussionSource 0 =
      ([], discussionSource) := by
  have h1 : findCmdArgs (("alsoIn").toList) discussionSource = [] := by
    rw [← findCmdArgsFuel_eq _ 16 discussionSource (by decide)]
    decide
  have h2 : removeCmdArgs (("alsoIn").toList) discussionSource none = discussionSource := by
    rw [← removeCmdArgsFuel_eq _ 16 discussionSource _ (by decide)]
    decide
  unfold find_and_remove_command_arguments
  rw [h1]
  simp only [if_pos rfl, if_true]
  rw [h2]
  rfl

theorem farca_proves_ds :
    find_and_remove_command_argument (("proves").toList) discussionSource =
      (none, discussionSource, []) := by
  have h1 : findCmdArgs (("proves").toList) discussionSource = [] := by
    rw [← findCmdArgsFuel_eq _ 16 discussionSource (by decide)]
    decide
  have h2 : removeCmdArgs (("proves").toList) discussionSource (some 1) = discussionSource := by
    rw [← removeCmdArgsFuel_eq _ 16 discussionSource _ (by decide)]
    decide
  unfold find_and_remove_command_argument find_and_remove_command_arguments
  rw [h1]
  rw [if_neg (by decide)]
  rw [h2]
  rfl

theorem farc_leanok_ds :
    find_and_remove_command (("leanok").toList) discussionSource =
      (false, discussionSource) := by
  rw [← find_and_remove_commandFuel_eq _ 16 discussionSource (by decide)]
  decide

theorem farc_notready_ds :
    find_and_remove_command (("notready").toList) discussionSource =
      (false, discussionSource) := by
  rw [← find_and_remove_commandFuel_eq _ 16 discussionSource (by decide)]
  decide

theorem farc_mathlibok_ds :
    find_and_remove_command (("mathlibok").toList) discussionSource =
      (false, discussionSource) := by
  rw [← find_and_remove_commandFuel_eq _ 16 discussionSource (by decide)]
  decide

theorem farca_lean_ds :
    find_and_remove_command_argument (("lean").toList) discussionSource =
      (none, discussionSource, []) := by
  have h1 : findCmdArgs (("lean").toList) discussionSource = [] := by
    rw [← findCmdArgsFuel_eq _ 16 discussionSource (by decide)]
    decide
  have h2 : removeCmdArgs (("lean").toList) discussionSource (some 1) = discussionSource := by
    rw [← removeCmdArgsFuel_eq _ 16 discussionSource _ (by decide)]
    decide
  unfold find_and_remove_command_argument find_and_remove_command_arguments
  rw [h1]
  rw [if_neg (by decide)]
  rw [h2]
  rfl

theorem parse_steps_before_discussion_ds :
    parse_steps_before_discussion discussionSource =
      ⟨none, [], [], none, false, false, false, none, discussionSource, []⟩ := by
  unfold parse_steps_before_discussion
  rw [remove_environments_ds, farca_label_ds]
  show (let source1 := removeAllSub ((("\\label").toList) ++ '{' :: labelText none ++
      [('}' : Char)]) discussionSource
    let ur := find_and_remove_command_arguments (("uses").toList) source1 0
    let ar := find_and_remove_command_arguments (("alsoIn").toList) ur.2 0
    let pr := find_and_remove_command_argument (("proves").toList) ar.2
    let l1 := find_and_remove_command (("leanok").toList) pr.2.1
    let n1 := find_and_remove_command (("notready").toList) l1.2
    let m1 := find_and_remove_command (("mathlibok").toList) n1.2
    let le1 := find_and_remove_command_argument (("lean").toList) m1.2
    ({ label := none, uses := ur.1, alsoIn := ar.1, proves := pr.1,
       leanok := l1.1, notready := n1.1, mathlibok := m1.1, lean := le1.1,
       residual := le1.2.1, warns := [] ++ pr.2.2 ++ le1.2.2 } : PreDiscussion)) = _
  rw [removeAllSub_ds]
  dsimp only
  rw [show (find_and_remove_command_arguments (("uses").toList) discussionSource 0) =
    ([], discussionSource) from farcas_uses_ds]
  rw [show (find_and_remove_command_arguments (("alsoIn").toList) discussionSource 0) =
    ([], discussionSource) from farcas_alsoIn_ds]
  rw [farca_proves_ds, farc_leanok_ds, farc_notready_ds, farc_mathlibok_ds, farca_lean_ds]
  rfl

theorem farca_discussion_ds :
    find_and_remove_command_argument (("discussion").toList) discussionSource =
      (some (("a+").toList), [], []) := by
  have h1 : findCmdArgs (("discussion").toList) discussionSource = [(("a+").toList)] := by
    rw [← findCmdArgsFuel_eq _ 16 discussionSource (by decide)]
    decide
  have h2 : removeCmdArgs (("discussion").toList) discussionSource (some 1) = [] := by
    rw [← removeCmdArgsFuel_eq _ 16 discussionSource _ (by decide)]
    decide
  unfold find_and_remove_command_argument find_and_remove_command_arguments
  rw [h1]
  rw [if_neg (by decide)]
  rw [h2]
  rfl

theorem try_int_invalid_discussion_silent_witness :
    (parse_and_remove_blueprint_commands discussionSource).1.discussion = none ∧
    (parse_and_remove_blueprint_commands discussionSource).2.2 =
      (parse_steps_before_discussion discussionSource).warns :=
  try_int_invalid_discussion_silent discussionSource (("a+").toList)
    (by rw [parse_steps_before_discussion_ds]
        show (find_and_remove_command_argument (("discussion").toList) discussionSource).1 = _
        rw [farca_discussion_ds])
    (by rw [parse_steps_before_discussion_ds]
        show (find_and_remove_command_argument (("discussion").toList) discussionSource).2.2 = _
        rw [farca_discussion_ds])
    (by decide)

theorem farca_nil (cmd : List Char) :
    find_and_remove_command_argument cmd [] = (none, [], []) := by
  unfold find_and_remove_command_argument find_and_remove_command_arguments
  rw [findCmdArgs_nil, removeCmdArgs_nil]
  rfl

theorem farcas_nil (cmd : List Char) (sub_count : Nat) :
    find_and_remove_command_arguments cmd [] sub_count = ([], []) := by
  unfold find_and_remove_command_arguments
  rw [findCmdArgs_nil, removeCmdArgs_nil]
  rfl

theorem remove_environments_ps : remove_environments provesSource = provesSource := by
  rw [← remove_environmentsFuel_eq 13 provesSource (by decide)]
  decide

theorem farca_label_ps :
    find_and_remove_command_argument (("label").toList) provesSource =
      (none, provesSource, []) := by
  have h1 : findCmdArgs (("label").toList) provesSource = [] := by
    rw [← findCmdArgsFuel_eq _ 13 provesSource (by decide)]
    decide
  have h2 : removeCmdArgs (("label").toList) provesSource (some 1) = provesSource := by
    rw [← removeCmdArgsFuel_eq _ 13 provesSource _ (by decide)]
    decide
  unfold find_and_remove_command_argument find_and_remove_command_arguments
  rw [h1]
  rw [if_neg (by decide)]
  rw [h2]
  rfl

theorem removeAllSub_ps :
    removeAllSub (("\\label").toList ++ '{' :: labelText none ++ [('}' : Char)])
      provesSource = provesSource := by
  rw [← removeAllSubFuel_eq _ 13 provesSource (by decide)]
  decide

theorem farcas_uses_ps :
    find_and_remove_command_arguments (("uses").toList) provesSource 0 =
      ([], provesSource) := by
  have h1 : findCmdArgs (("uses").toList) provesSource = [] := by
    rw [← findCmdArgsFuel_eq _ 13 provesSource (by decide)]
    decide
  have h2 : removeCmdArgs (("uses").toList) provesSource none = provesSource := by
    rw [← removeCmdArgsFuel_eq _ 13 provesSource _ (by decide)]
    decide
  unfold find_and_remove_command_arguments
  rw [h1]
  simp only [if_pos rfl, if_true]
  rw [h2]
  rfl

theorem farcas_alsoIn_ps :
    find_and_remove_command_arguments (("alsoIn").toList) provesSource 0 =
      ([], provesSource) := by
  have h1 : findCmdArgs (("alsoIn").toList) provesSource = [] := by
    rw [← findCmdArgsFuel_eq _ 13 provesSource (by decide)]
    decide
  have h2 : removeCmdArgs (("alsoIn").toList) provesSource none = provesSource := by
    rw [← removeCmdArgsFuel_eq _ 13 provesSource _ (by decide)]
    decide
  unfold find_and_remove_command_arguments
  rw [h1]
  simp only [if_pos rfl, if_true]
  rw [h2]
  rfl

theorem farca_proves_ps :
    find_and_remove_command_argument (("proves").toList) provesSource =
      (some (("zzz").toList), [], []) := by
  have h1 : findCmdArgs (("proves").toList) provesSource = [(("zzz").toList)] := by
    rw [← findCmdArgsFuel_eq _ 13 provesSource (by decide)]
    decide
  have h2 : removeCmdArgs (("proves").toList) provesSource (some 1) = [] := by
    rw [← removeCmdArgsFuel_eq _ 13 provesSource _ (by decide)]
    decide
  unfold find_and_remove_command_argument find_and_remove_command_arguments
  rw [h1]
  rw [if_neg (by decide)]
  rw [h2]
  rfl

theorem parse_steps_before_discussion_ps :
    parse_steps_before_discussion provesSource =
      ⟨none, [], [], some (("zzz").toList), false, false, false, none, [], []⟩ := by
  unfold parse_steps_before_discussion
  rw [remove_environments_ps, farca_label_ps]
  show (let source1 := removeAllSub ((("\\label").toList) ++ '{' :: labelText none ++
      [('}' : Char)]) provesSource
    let ur := find_and_remove_command_arguments (("uses").toList) source1 0
    let ar := find_and_remove_command_arguments (("alsoIn").toList) ur.2 0
    let pr := find_and_remove_command_argument (("proves").toList) ar.2
    let l1 := find_and_remove_command (("leanok").toList) pr.2.1
    let n1 := find_and_remove_command (("notready").toList) l1.2
    let m1 := find_and_remove_command (("mathlibok").toList) n1.2
    let le1 := find_and_remove_command_argument (("lean").toList) m1.2
    ({ label := none, uses := ur.1, alsoIn := ar.1, proves := pr.1,
       leanok := l1.1, notready := n1.1, mathlibok := m1.1, lean := le1.1,
       residual := le1.2.1, warns := [] ++ pr.2.2 ++ le1.2.2 } : PreDiscussion)) = _
  rw [removeAllSub_ps]
  dsimp only
  rw [show (find_and_remove_command_arguments (("uses").toList) provesSource 0) =
    ([], provesSource) from farcas_uses_ps]
  rw [show (find_and_remove_command_arguments (("alsoIn").toList) provesSource 0) =
    ([], provesSource) from farcas_alsoIn_ps]
  rw [farca_proves_ps]
  simp only [find_and_remove_command_nil, farca_nil]
  rfl

theorem parse_and_remove_blueprint_commands_ps :
    parse_and_remove_blueprint_commands provesSource =
      (⟨none, [], [], some (("zzz").toList), false, false, false, none, none⟩, [], []) := by
  unfold parse_and_remove_blueprint_commands
  rw [parse_steps_before_discussion_ps]
  dsimp only
  rw [farca_nil]
  rfl

theorem process_source_ps :
    process_source provesSource =
      (⟨none, [], [], some (("zzz").toList), false, false, false, none, none⟩, [], []) := by
  unfold process_source
  rw [show remove_nonbreaking_spaces provesSource = provesSource from by decide]
  exact parse_and_remove_blueprint_commands_ps

theorem parse_steps_before_discussion_nil :
    parse_steps_before_discussion [] =
      ⟨none, [], [], none, false, false, false, none, [], []⟩ := by
  unfold parse_steps_before_discussion
  rw [remove_environments_nil, farca_nil]
  dsimp only
  rw [removeAllSub_nil]
  simp only [farcas_nil, farca_nil, find_and_remove_command_nil]
  rfl

theorem process_source_nil :
    process_source [] =
      (⟨none, [], [], none, false, false, false, none, none⟩, [], []) := by
  unfold process_source
  rw [show remove_nonbreaking_spaces [] = [] from by decide]
  unfold parse_and_remove_blueprint_commands
  rw [parse_steps_before_discussion_nil]
  dsimp only
  rw [farca_nil]
  rfl

/-- C4 counterexample: a proof environment whose explicit proves directive names a label with no known node does NOT produce a warning and a continuing run: the proof-loop step fails (the uncaught KeyError of the label lookup), which aborts node parsing. -/
theorem proof_step_unknown_proves_counterexample :
    proof_step []
      { match_idx_to_node := []
        nodes := []
        label_to_node := []
        name_to_raw_sources := []
        warns := []
        rand := [] }
      (0,
       { env := ("proof").toList
         title := none
         content := provesSource
         start := 0
         raw := provesSource }) = none := by
  unfold proof_step
  dsimp only
  rw [if_neg (by decide)]
  rw [if_neg (by decide)]
  rw [process_source_ps]
  dsimp only
  rfl

/-- C4 (amended): only the INFERRED association case degrades gracefully: a proof environment with no proves directive and no preceding statement occurrence is dropped with a Cannot-determine warning appended, and the step succeeds; an unknown explicit proves label instead aborts the run (see the counterexample). -/
theorem proof_step_unresolved_inferred_warns (source : List Char) (st : ParseSt)
    (i : Nat) (m : EnvMatch)
    (henv : m.env = ("proof").toList)
    (hcom : isCommentedAt source m.start = false)
    (hproves : (process_source m.content).1.proves = none)
    (hidx : (if i = 0 then none
             else List.find? (fun e => e.1 = i - 1) st.match_idx_to_node) = none) :
    proof_step source st (i, m) =
      some
        { st with
          warns := (st.warns ++ (process_source m.content).2.2) ++
            [cannotDetermineMsg (process_source m.content).2.1] } := by
  unfold proof_step
  dsimp only
  rw [if_neg (fun hne => hne henv)]
  rw [if_neg (by rw [hcom]; exact fun h => absurd h (by decide))]
  rw [hproves]
  rw [hidx]

theorem proof_step_unresolved_inferred_warns_witness :
    proof_step []
      { match_idx_to_node := []
        nodes := []
        label_to_node := []
        name_to_raw_sources := []
        warns := []
        rand := [] }
      (0,
       { env := ("proof").toList
         title := none
         content := []
         start := 0
         raw := [] }) =
      some
        { match_idx_to_node := []
          nodes := []
          label_to_node := []
          name_to_raw_sources := []
          warns := ([] ++ (process_source []).2.2) ++
            [cannotDetermineMsg (process_source []).2.1]
          rand := [] } :=
  proof_step_unresolved_inferred_warns [] _ 0 _ rfl (by decide)
    (by rw [process_source_nil]) rfl

theorem visitAll_nil (data : List (NodeWithPos × List Char)) (s : VisitSt) :
    (visitAll data [] s).1 = s := by
  rw [visitAll.eq_def]

theorem visitAll_cons_visited (data : List (NodeWithPos × List Char))
    (name : List Char) (rest : List (List Char)) (s : VisitSt) (hv : name ∈ s.visited) :
    (visitAll data (name :: rest) s).1 = (visitAll data rest s).1 := by
  conv_lhs => rw [visitAll.eq_def]
  dsimp only
  rw [dif_pos hv]

theorem visitAll_cons_unknown (data : List (NodeWithPos × List Char))
    (name : List Char) (rest : List (List Char)) (s : VisitSt) (hv : name ∉ s.visited)
    (hl : name_to_node_lookup data name = none) :
    (visitAll data (name :: rest) s).1 = (visitAll data rest s).1 := by
  conv_lhs => rw [visitAll.eq_def]
  dsimp only
  rw [dif_neg hv]
  split
  next => rfl
  next entry heq => rw [hl] at heq; exact absurd heq (by simp)

theorem visitAll_cons_found (data : List (NodeWithPos × List Char))
    (name : List Char) (rest : List (List Char)) (s : VisitSt) (hv : name ∉ s.visited)
    (entry : NodeWithPos × List Char)
    (hl : name_to_node_lookup data name = some entry) :
    (visitAll data (name :: rest) s).1 =
      (visitAll data rest
        ⟨(visitAll data entry.1.toNode.uses ⟨insert name s.visited, s.result⟩).1.visited,
         (visitAll data entry.1.toNode.uses ⟨insert name s.visited, s.result⟩).1.result
           ++ [entry]⟩).1 := by
  conv_lhs => rw [visitAll.eq_def]
  dsimp only
  rw [dif_neg hv]
  split
  next heq => rw [hl] at heq; exact absurd heq (by simp)
  next e heq =>
    rw [hl] at heq
    have he : e = entry := by
      injection heq with h2
      exact h2.symm
    subst he
    rfl

theorem lookup_entryName (data : List (NodeWithPos × List Char)) (name : List Char)
    (p : NodeWithPos × List Char) (h : name_to_node_lookup data name = some p) :
    entryName p = name := by
  have h2 := List.find?_some h
  simpa [entryName] using h2

theorem lookup_mem_data (data : List (NodeWithPos × List Char)) (name : List Char)
    (p : NodeWithPos × List Char) (h : name_to_node_lookup data name = some p) :
    p ∈ data := by
  have h2 := List.mem_of_find?_eq_some h
  rwa [List.mem_reverse] at h2

theorem mem_topoNames_lookup (data : List (NodeWithPos × List Char)) (name : List Char)
    (h : name ∈ topoNames data) :
    ∃ p, name_to_node_lookup data name = some p := by
  rw [topoNames, List.mem_toFinset, List.mem_map] at h
  obtain ⟨q, hq, hqn⟩ := h
  rw [← Option.isSome_iff_exists]
  rw [name_to_node_lookup, List.find?_isSome]
  exact ⟨q, List.mem_reverse.mpr hq, by simp [hqn]⟩

theorem visitAll_spec (data : List (NodeWithPos × List Char)) :
    ∀ (pending : List (List Char)) (s : VisitSt),
      ∃ new,
        (visitAll data pending s).1.result = s.result ++ new ∧
        (∀ p ∈ new, name_to_node_lookup data (entryName p) = some p ∧
          entryName p ∉ s.visited) ∧
        (visitAll data pending s).1.visited = s.visited ∪ (resNames new).toFinset ∧
        (resNames new).Nodup ∧
        (∀ n ∈ pending, n ∈ topoNames data → n ∈ (visitAll data pending s).1.visited) := by
  intro pending s
  induction pending, s using visitAll.induct data with
  | case1 s =>
    refine ⟨[], ?_, ?_, ?_, ?_, ?_⟩
    · rw [visitAll_nil]
      simp
    · simp
    · rw [visitAll_nil]
      simp [resNames]
    · simp [resNames]
    · simp
  | case2 name rest s hv ih =>
    obtain ⟨new, h1, h2, h3, h4, h5⟩ := ih
    refine ⟨new, ?_, h2, ?_, h4, ?_⟩
    · rw [visitAll_cons_visited data name rest s hv]
      exact h1
    · rw [visitAll_cons_visited data name rest s hv]
      exact h3
    · intro n hn ht
      rw [visitAll_cons_visited data name rest s hv]
      rcases List.mem_cons.mp hn with h | h
      · subst h
        exact (visitAll data rest s).2 hv
      · exact h5 n h ht
  | case3 name rest s hv hl ih =>
    obtain ⟨new, h1, h2, h3, h4, h5⟩ := ih
    refine ⟨new, ?_, h2, ?_, h4, ?_⟩
    · rw [visitAll_cons_unknown data name rest s hv hl]
      exact h1
    · rw [visitAll_cons_unknown data name rest s hv hl]
      exact h3
    · intro n hn ht
      rw [visitAll_cons_unknown data name rest s hv hl]
      rcases List.mem_cons.mp hn with h | h
      · subst h
        obtain ⟨p, hp⟩ := mem_topoNames_lookup data n ht
        rw [hp] at hl
        exact absurd hl (by simp)
      · exact h5 n h ht
  | case4 name rest s hv entry hl inner s1 ihInner ihInnerCond ihOut1 ihOut2 =>
    clear ihInnerCond ihOut1 inner s1
    obtain ⟨ni, hi1, hi2, hi3, hi4, hi5⟩ := ihInner
    obtain ⟨no, ho1, ho2, ho3, ho4, ho5⟩ := ihOut2
    have hname : entryName entry = name := lookup_entryName data name entry hl
    have hrw := visitAll_cons_found data name rest s hv entry hl
    have hmono_in : (insert name s.visited : Finset (List Char)) ⊆
        (visitAll data entry.1.toNode.uses ⟨insert name s.visited, s.result⟩).1.visited :=
      (visitAll data entry.1.toNode.uses ⟨insert name s.visited, s.result⟩).2
    refine ⟨ni ++ entry :: no, ?_, ?_, ?_, ?_, ?_⟩
    · rw [hrw, ho1]
      show ((visitAll data entry.1.toNode.uses ⟨insert name s.visited, s.result⟩).1.result
        ++ [entry]) ++ no = _
      rw [hi1]
      show (s.result ++ ni ++ [entry]) ++ no = _
      simp
    · intro p hp
      rcases List.mem_append.mp hp with h | h
      · obtain ⟨hpl, hpv⟩ := hi2 p h
        exact ⟨hpl, fun hc => hpv (by
          show entryName p ∈ (⟨insert name s.visited, s.result⟩ : VisitSt).visited
          exact Finset.mem_insert_of_mem hc)⟩
      · rcases List.mem_cons.mp h with h | h
        · subst h
          rw [hname]
          exact ⟨hl, hv⟩
        · obtain ⟨hpl, hpv⟩ := ho2 p h
          refine ⟨hpl, fun hc => hpv ?_⟩
          show entryName p ∈
            (visitAll data entry.1.toNode.uses ⟨insert name s.visited, s.result⟩).1.visited
          rw [hi3]
          exact Finset.mem_union_left _ (Finset.mem_insert_of_mem hc)
    · rw [hrw, ho3]
      show (visitAll data entry.1.toNode.uses ⟨insert name s.visited, s.result⟩).1.visited
        ∪ _ = _
      rw [hi3]
      show ((⟨insert name s.visited, s.result⟩ : VisitSt).visited ∪ _) ∪ _ = _
      ext x
      simp only [Finset.mem_union, Finset.mem_insert, List.mem_toFinset, resNames,
        List.map_append, List.map_cons, List.mem_append, List.mem_cons, entryName]
      rw [show entry.1.name = name from hname]
      tauto
    · have hrn : resNames (ni ++ entry :: no) = resNames ni ++ ([name] ++ resNames no) := by
        simp only [resNames, List.map_append, List.map_cons]
        rw [hname]
        rfl
      rw [hrn]
      rw [List.nodup_append, List.nodup_append]
      refine ⟨hi4, ⟨List.nodup_singleton _, ho4, ?_⟩, ?_⟩
      · intro a ha hb
        rw [List.mem_singleton] at ha
        obtain ⟨q, hq, hqe⟩ := List.mem_map.mp hb
        obtain ⟨-, hqv⟩ := ho2 q hq
        apply hqv
        rw [hqe, ha]
        show name ∈
          (visitAll data entry.1.toNode.uses ⟨insert name s.visited, s.result⟩).1.visited
        exact hmono_in (Finset.mem_insert_self _ _)
      · intro a ha hb
        obtain ⟨q, hq, hqe⟩ := List.mem_map.mp ha
        obtain ⟨-, hqv⟩ := hi2 q hq
        rcases List.mem_append.mp hb with h | h
        · rw [List.mem_singleton] at h
          exact hqv (by
            show entryName q ∈ (⟨insert name s.visited, s.result⟩ : VisitSt).visited
            rw [hqe, h]
            exact Finset.mem_insert_self _ _)
        · obtain ⟨q2, hq2, hq2e⟩ := List.mem_map.mp h
          obtain ⟨-, hq2v⟩ := ho2 q2 hq2
          apply hq2v
          rw [hq2e, ← hqe]
          show entryName q ∈
            (visitAll data entry.1.toNode.uses ⟨insert name s.visited, s.result⟩).1.visited
          rw [hi3]
          apply Finset.mem_union_right
          rw [List.mem_toFinset]
          exact List.mem_map_of_mem entryName hq
    · intro n hn ht
      rw [hrw]
      rcases List.mem_cons.mp hn with h | h
      · subst h
        refine (visitAll data rest _).2 ?_
        show n ∈ (visitAll data entry.1.toNode.uses ⟨insert n s.visited, s.result⟩).1.visited
        exact (visitAll data entry.1.toNode.uses _).2 (Finset.mem_insert_self _ _)
      · exact ho5 n h ht

theorem TopoOrdered_append_one (data : List (NodeWithPos × List Char))
    (r : List (NodeWithPos × List Char)) (p : NodeWithPos × List Char)
    (hr : TopoOrdered data r)
    (hp : ∀ v ∈ p.1.toNode.uses, v ∈ topoNames data → v ∈ resNames r) :
    TopoOrdered data (r ++ [p]) := by
  intro k hk v hv ht
  rcases Nat.lt_or_ge k r.length with h | h
  · have hget : (r ++ [p]).get ⟨k, hk⟩ = r.get ⟨k, h⟩ := by
      simp [List.getElem_append_left h]
    rw [hget] at hv
    have htake : (r ++ [p]).take k = r.take k := by
      rw [List.take_append_of_le_length (Nat.le_of_lt h)]
    rw [htake]
    exact hr k h v hv ht
  · have hk2 : k = r.length := by
      have := hk
      simp only [List.length_append, List.length_singleton] at this
      omega
    subst hk2
    have hget : (r ++ [p]).get ⟨r.length, hk⟩ = p := by
      simp
    rw [hget] at hv
    have htake : (r ++ [p]).take r.length = r := List.take_left r [p]
    rw [htake]
    exact hp v hv ht

theorem topoNames_of_lookup (data : List (NodeWithPos × List Char)) (name : List Char)
    (entry : NodeWithPos × List Char) (hl : name_to_node_lookup data name = some entry) :
    name ∈ topoNames data := by
  have hmem := lookup_mem_data data name entry hl
  have hn := lookup_entryName data name entry hl
  rw [topoNames, List.mem_toFinset, List.mem_map]
  exact ⟨entry, hmem, hn⟩

theorem visitAll_ordered (data : List (NodeWithPos × List Char)) (hacyc : Acyclic data) :
    ∀ (pending : List (List Char)) (s : VisitSt),
      (∀ x ∈ resNames s.result, x ∈ s.visited) →
      TopoOrdered data s.result →
      (∀ g ∈ s.visited, g ∉ resNames s.result →
        ∀ n ∈ pending, n ∈ topoNames data → Relation.TransGen (dependsOn data) g n) →
      TopoOrdered data (visitAll data pending s).1.result := by
  intro pending s
  induction pending, s using visitAll.induct data with
  | case1 s =>
    intro _ hord _
    rw [visitAll_nil]
    exact hord
  | case2 name rest s hv ih =>
    intro hsub hord hctx
    rw [visitAll_cons_visited data name rest s hv]
    exact ih hsub hord
      (fun g hg hgr n hn ht => hctx g hg hgr n (List.mem_cons_of_mem _ hn) ht)
  | case3 name rest s hv hl ih =>
    intro hsub hord hctx
    rw [visitAll_cons_unknown data name rest s hv hl]
    exact ih hsub hord
      (fun g hg hgr n hn ht => hctx g hg hgr n (List.mem_cons_of_mem _ hn) ht)
  | case4 name rest s hv entry hl inner s1 ihInner ihInnerCond ihOut1 ihOut2 =>
    clear ihInnerCond ihOut1 inner s1
    intro hsub hord hctx
    rw [visitAll_cons_found data name rest s hv entry hl]
    have hnameTopo : name ∈ topoNames data := topoNames_of_lookup data name entry hl
    obtain ⟨ni, hi1, hi2, hi3, hi4, hi5⟩ :=
      visitAll_spec data entry.1.toNode.uses ⟨insert name s.visited, s.result⟩
    have hres : resNames
        (visitAll data entry.1.toNode.uses ⟨insert name s.visited, s.result⟩).1.result =
        resNames s.result ++ resNames ni := by
      rw [show resNames
        (visitAll data entry.1.toNode.uses ⟨insert name s.visited, s.result⟩).1.result =
        resNames ((⟨insert name s.visited, s.result⟩ : VisitSt).result ++ ni) from by rw [hi1]]
      simp [resNames]
    have hordIn : TopoOrdered data
        (visitAll data entry.1.toNode.uses ⟨insert name s.visited, s.result⟩).1.result := by
      apply ihInner
      · intro x hx
        exact Finset.mem_insert_of_mem (hsub x hx)
      · exact hord
      · intro g hg hgr n hn ht
        have hedge : dependsOn data name n := ⟨entry, hl, hn, ht⟩
        rcases Finset.mem_insert.mp hg with hgname | hgs
        · rw [hgname]
          exact Relation.TransGen.single hedge
        · have hTG := hctx g hgs hgr name (List.mem_cons_self _ _) hnameTopo
          exact Relation.TransGen.tail hTG hedge
    have hordS1 : TopoOrdered data
        ((visitAll data entry.1.toNode.uses ⟨insert name s.visited, s.result⟩).1.result
          ++ [entry]) := by
      apply TopoOrdered_append_one data _ entry hordIn
      intro v hv2 ht2
      have hvin := hi5 v hv2 ht2
      rw [hi3] at hvin
      rw [hres]
      rcases Finset.mem_union.mp hvin with h | h
      · rcases Finset.mem_insert.mp h with h2 | h2
        · exfalso
          apply hacyc name
          apply Relation.TransGen.single
          exact ⟨entry, hl, h2 ▸ hv2, h2 ▸ ht2⟩
        · by_cases hvres : v ∈ resNames s.result
          · exact List.mem_append.mpr (Or.inl hvres)
          · exfalso
            apply hacyc name
            exact Relation.TransGen.head ⟨entry, hl, hv2, ht2⟩
              (hctx v h2 hvres name (List.mem_cons_self _ _) hnameTopo)
      · rw [List.mem_toFinset] at h
        exact List.mem_append.mpr (Or.inr h)
    have hresS1 : resNames
        ((visitAll data entry.1.toNode.uses ⟨insert name s.visited, s.result⟩).1.result
          ++ [entry]) = (resNames s.result ++ resNames ni) ++ [name] := by
      rw [show resNames
        ((visitAll data entry.1.toNode.uses ⟨insert name s.visited, s.result⟩).1.result
          ++ [entry]) = resNames
        (visitAll data entry.1.toNode.uses ⟨insert name s.visited, s.result⟩).1.result
          ++ [entryName entry] from by simp [resNames]]
      rw [hres, lookup_entryName data name entry hl]
    apply ihOut2
    · intro x hx
      show x ∈ (visitAll data entry.1.toNode.uses ⟨insert name s.visited, s.result⟩).1.visited
      rw [hresS1] at hx
      rw [hi3]
      rcases List.mem_append.mp hx with h | h
      · rcases List.mem_append.mp h with h2 | h2
        · exact Finset.mem_union_left _ (Finset.mem_insert_of_mem (hsub x h2))
        · exact Finset.mem_union_right _ (List.mem_toFinset.mpr h2)
      · rw [List.mem_singleton] at h
        rw [h]
        exact Finset.mem_union_left _ (Finset.mem_insert_self _ _)
    · exact hordS1
    · intro g hg hgr n hn ht
      rw [hresS1] at hgr
      have hgv : g ∈
          (visitAll data entry.1.toNode.uses ⟨insert name s.visited, s.result⟩).1.visited := hg
      rw [hi3] at hgv
      have hgs : g ∈ s.visited := by
        rcases Finset.mem_union.mp hgv with h | h
        · rcases Finset.mem_insert.mp h with h2 | h2
          · exfalso
            apply hgr
            rw [h2]
            exact List.mem_append.mpr (Or.inr (List.mem_singleton.mpr rfl))
          · exact h2
        · exfalso
          apply hgr
          rw [List.mem_toFinset] at h
          exact List.mem_append.mpr (Or.inl (List.mem_append.mpr (Or.inr h)))
      have hgres : g ∉ resNames s.result := fun hc =>
        hgr (List.mem_append.mpr (Or.inl (List.mem_append.mpr (Or.inl hc))))
      exact hctx g hgs hgres n (List.mem_cons_of_mem _ hn) ht

theorem lookup_self (data : List (NodeWithPos × List Char))
    (hnd : (data.map entryName).Nodup) (p : NodeWithPos × List Char) (hp : p ∈ data) :
    name_to_node_lookup data (entryName p) = some p := by
  induction data with
  | nil => exact absurd hp (List.not_mem_nil p)
  | cons d rest ih =>
    rw [List.map_cons, List.nodup_cons] at hnd
    rw [name_to_node_lookup, List.reverse_cons, List.find?_append]
    rcases List.mem_cons.mp hp with h | h
    · subst h
      have hnone : List.find? (fun e => e.1.name = entryName p) rest.reverse = none := by
        rw [List.find?_eq_none]
        intro q hq
        rw [List.mem_reverse] at hq
        simp only [decide_eq_true_eq]
        intro hqe
        exact hnd.1 (hqe ▸ List.mem_map_of_mem entryName hq)
      rw [hnone]
      simp [entryName]
    · have hfound := ih hnd.2 h
      rw [name_to_node_lookup] at hfound
      rw [hfound]
      simp

theorem topological_sort_result (data : List (NodeWithPos × List Char)) :
    ∃ new, topological_sort data = new ∧
      (∀ p ∈ new, name_to_node_lookup data (entryName p) = some p) ∧
      (resNames new).Nodup ∧
      (∀ n ∈ data.map entryName, n ∈ resNames new) := by
  obtain ⟨new, h1, h2, h3, h4, h5⟩ :=
    visitAll_spec data (data.map (fun p => p.1.name)) ⟨∅, []⟩
  refine ⟨new, ?_, fun p hp => (h2 p hp).1, h4, ?_⟩
  · rw [topological_sort, h1]
    rfl
  · intro n hn
    have ht : n ∈ topoNames data := by
      rw [topoNames, List.mem_toFinset]
      exact hn
    have h6 := h5 n hn ht
    rw [h3] at h6
    rcases Finset.mem_union.mp h6 with h | h
    · exact absurd h (Finset.not_mem_empty n)
    · exact List.mem_toFinset.mp h

/-- C2: for every input whose node names are distinct (as guaranteed by the upstream parser, which renames duplicates), topological_sort terminates (it is a total function here) and its output is a permutation of the input: every input node appears exactly once, including when the graph contains dependency cycles (see the witness, a two-node cycle). -/
theorem topological_sort_perm (data : List (NodeWithPos × List Char))
    (hnd : (data.map (fun p => p.1.name)).Nodup) :
    (topological_sort data).Perm data := by
  obtain ⟨new, hnew, hlook, hnd2, hcover⟩ := topological_sort_result data
  rw [hnew]
  have hndE : (data.map entryName).Nodup := hnd
  apply List.perm_of_nodup_nodup_toFinset_eq
  · exact hnd2.of_map
  · exact hndE.of_map
  · ext p
    simp only [List.mem_toFinset]
    constructor
    · intro hp
      exact lookup_mem_data data (entryName p) p (hlook p hp)
    · intro hp
      have h1 : entryName p ∈ resNames new :=
        hcover (entryName p) (List.mem_map_of_mem entryName hp)
      obtain ⟨q, hq, hqe⟩ := List.mem_map.mp h1
      have h2 := hlook q hq
      rw [hqe] at h2
      rw [lookup_self data hndE p hp] at h2
      injection h2 with h3
      rw [h3]
      exact hq

/-- C1: for every acyclic resolved dependency graph, the topological sort output places every node strictly after all of its resolved dependencies: each emitted entry has all its known uses among the names emitted strictly before it. -/
theorem topological_sort_acyclic_ordered (data : List (NodeWithPos × List Char))
    (hacyc : Acyclic data) :
    TopoOrdered data (topological_sort data) := by
  rw [topological_sort]
  apply visitAll_ordered data hacyc
  · intro x hx
    simp [resNames] at hx
  · intro k hk
    simp at hk
  · intro g hg
    exact absurd hg (Finset.not_mem_empty g)

theorem topological_sort_acyclic_ordered_witness :
    Acyclic [(node7, ("x").toList)] ∧
    TopoOrdered [(node7, ("x").toList)] (topological_sort [(node7, ("x").toList)]) := by
  have hedge : ∀ u v : List Char, ¬ dependsOn [(node7, ("x").toList)] u v := by
    rintro u v ⟨p, hp, hu, -⟩
    have hmem := lookup_mem_data _ _ _ hp
    rw [List.mem_singleton] at hmem
    subst hmem
    simp [node7, Node.uses] at hu
  have hacyc : Acyclic [(node7, ("x").toList)] := by
    intro n h
    cases h with
    | single h1 => exact hedge _ _ h1
    | tail h1 h2 => exact hedge _ _ h2
  exact ⟨hacyc, topological_sort_acyclic_ordered _ hacyc⟩

theorem topological_sort_perm_witness :
    (([(nodeA, ("la").toList), (nodeB, ("lb").toList)].map
      (fun p => p.1.name)).Nodup) ∧
    (topological_sort [(nodeA, ("la").toList), (nodeB, ("lb").toList)]).Perm
      [(nodeA, ("la").toList), (nodeB, ("lb").toList)] :=
  ⟨by decide, topological_sort_perm _ (by decide)⟩
